import Mathlib

/-! Day 1 dial simulator: embedding of `src/day-1/main.cpp`.

The program keeps three `int` locals (`position`, `zeroCountPart1`,
`zeroCountPart2`) and updates them once per non-empty input line.  The
embedding is a state-passing translation of the loop body.

C++ `int` values are modelled by `Int`; `/` and `%` on `int` truncate towards
zero, so they are `Int.tdiv` and `Int.tmod`.  The loop body is given twice.

* `leftBranch`, `rightBranch`, `processInstruction`, `runInstructions` read the
  C++ expressions over exact integers.  They describe the arithmetic that the
  program intends and they agree with the compiled program as long as no
  operation leaves the range of `int`.
* `leftBranch32`, `rightBranch32`, `processInstruction32`, `runInstructions32`
  reduce the result of every `+`, `-` and `+=` to 32 bits (`wrap32`), which is
  what the compiled program does with its `int` variables.  The statements
  whose truth depends on the range of `int` are made about these.
-/

namespace Day1

/-! ## The program -/

/-- The constant `DIAL_SIZE` of `main` (line 20). -/
def DIAL_SIZE : Int := 100

/-- The constant `START_POSITION` of `main` (line 21). -/
def START_POSITION : Int := 50

/-- The three mutable locals of `main` (lines 23-25). -/
structure DialState where
  position : Int
  zeroCountPart1 : Int
  zeroCountPart2 : Int
deriving DecidableEq

/-- The values of the locals before the loop starts (lines 23-25). -/
def initialState : DialState := ⟨START_POSITION, 0, 0⟩

/-- The value of `firstK` in the `L` branch (line 73). -/
def firstKLeft (position : Int) : Int :=
  if position = 0 then DIAL_SIZE else position

/-- The value of `firstK` in the `R` branch (line 84). -/
def firstKRight (position : Int) : Int :=
  if position = 0 then DIAL_SIZE else DIAL_SIZE - position

/-- The body of `if (direction == 'L')` (lines 73-78), over exact integers. -/
def leftBranch (s : DialState) (distance : Int) : DialState :=
  let firstK : Int := firstKLeft s.position
  let zeroCountPart2 : Int :=
    if firstK ≤ distance then
      s.zeroCountPart2 + (1 + Int.tdiv (distance - firstK) DIAL_SIZE)
    else s.zeroCountPart2
  let position : Int :=
    Int.tmod (Int.tmod (s.position - distance) DIAL_SIZE + DIAL_SIZE) DIAL_SIZE
  ⟨position, s.zeroCountPart1, zeroCountPart2⟩

/-- The body of `else if (direction == 'R')` (lines 84-89), over exact integers. -/
def rightBranch (s : DialState) (distance : Int) : DialState :=
  let firstK : Int := firstKRight s.position
  let zeroCountPart2 : Int :=
    if firstK ≤ distance then
      s.zeroCountPart2 + (1 + Int.tdiv (distance - firstK) DIAL_SIZE)
    else s.zeroCountPart2
  let position : Int := Int.tmod (s.position + distance) DIAL_SIZE
  ⟨position, s.zeroCountPart1, zeroCountPart2⟩

/-- The loop body after parsing (lines 39-95), over exact integers: the
direction dispatch followed by the Part 1 test on the new position. -/
def processInstruction (direction : Char) (distance : Int) (s : DialState) : DialState :=
  let s1 : DialState :=
    if direction = 'L' then leftBranch s distance
    else if direction = 'R' then rightBranch s distance
    else s
  if s1.position = 0 then ⟨s1.position, s1.zeroCountPart1 + 1, s1.zeroCountPart2⟩ else s1

/-- A parsed input line: `direction = line[0]`, `distance = stoi(line.substr(1))`. -/
structure Instruction where
  direction : Char
  distance : Int
deriving DecidableEq

/-- An instruction is well formed when its direction is `L` or `R` and its
distance is not negative. -/
def Instruction.WellFormed (i : Instruction) : Prop :=
  (i.direction = 'L' ∨ i.direction = 'R') ∧ 0 ≤ i.distance

instance (i : Instruction) : Decidable i.WellFormed :=
  inferInstanceAs (Decidable ((i.direction = 'L' ∨ i.direction = 'R') ∧ 0 ≤ i.distance))

/-- The `while` loop over already parsed instructions, over exact integers. -/
def runInstructions (instrs : List Instruction) (s : DialState) : DialState :=
  instrs.foldl (fun st i => processInstruction i.direction i.distance st) s

/-- The classification `isspace` of the C locale, used by `std::stoi`. -/
def isspace (c : Char) : Bool :=
  c.toNat = 32 || (9 ≤ c.toNat && c.toNat ≤ 13)

/-- The classification `isdigit`. -/
def isdigit (c : Char) : Bool :=
  48 ≤ c.toNat && c.toNat ≤ 57

/-- Largest value of `int`. -/
def INT_MAX : Int := 2147483647

/-- Smallest value of `int`. -/
def INT_MIN : Int := -2147483648

/-- The value of a run of decimal digits. -/
def digitsValue (ds : List Char) : Int :=
  ds.foldl (fun acc c => acc * 10 + ((c.toNat : Int) - 48)) 0

/-- The call `std::stoi(str)`: skip leading white space, read an optional sign
and the longest run of digits, ignore what follows.  The result is `none` when
the call throws (`std::invalid_argument` without a digit, `std::out_of_range`
outside `int`). -/
def stoi (str : List Char) : Option Int :=
  let body : List Char := str.dropWhile isspace
  let signed : Bool × List Char :=
    match body with
    | '-' :: rest => (true, rest)
    | '+' :: rest => (false, rest)
    | _ => (false, body)
  let digits : List Char := signed.2.takeWhile isdigit
  if digits = [] then none
  else
    let value : Int := if signed.1 then -(digitsValue digits) else digitsValue digits
    if value < INT_MIN ∨ INT_MAX < value then none else some value

/-- One iteration of the `while` loop on a line (lines 29-95): an empty line is
skipped, any other line is parsed and processed.  The result is `none` when
`std::stoi` throws. -/
def processLine (line : List Char) (s : DialState) : Option DialState :=
  match line with
  | [] => some s
  | direction :: rest =>
    match stoi rest with
    | none => none
    | some distance => some (processInstruction direction distance s)

/-- The `while (std::getline(file, line))` loop (lines 28-96). -/
def runLines : List (List Char) → DialState → Option DialState
  | [], s => some s
  | line :: rest, s =>
    match processLine line s with
    | none => none
    | some s1 => runLines rest s1

/-- What a run of the program produces. -/
inductive ProgramResult where
  | exited (status : Int) (stdout : List String) (stderr : List String)
  | terminated
deriving DecidableEq

/-- The function `main`, given the name of the input file and the lines of the
file when it can be opened (`none` when it cannot). -/
def main (inputFile : String) (file : Option (List (List Char))) : ProgramResult :=
  match file with
  | none => .exited 1 [] ["Error: Could not open file " ++ inputFile]
  | some lines =>
    match runLines lines initialState with
    | none => .terminated
    | some s =>
      .exited 0
        ["Part 1 - The actual password is: " ++ toString s.zeroCountPart1,
         "Part 2 - The actual password is: " ++ toString s.zeroCountPart2] []

/-! ## Reference definitions taken from the specification -/

/-- One click of the dial: one position down for `L`, one up for `R`, on a
dial that wraps modulo 100. -/
def clickOnce (direction : Char) (position : Int) : Int :=
  if direction = 'L' then (position - 1) % 100 else (position + 1) % 100

/-- Click-by-click simulation of one rotation: `clicks` single steps from
`position`, counting in `zeros` the clicks after which the dial reads 0. -/
def simulateClicks (direction : Char) : Nat → Int × Nat → Int × Nat
  | 0, st => st
  | clicks + 1, (position, zeros) =>
    let next : Int := clickOnce direction position
    simulateClicks direction clicks (next, if next = 0 then zeros + 1 else zeros)

/-- Click-by-click simulation of a whole instruction sequence. -/
def simulateRun (instrs : List Instruction) (st : Int × Nat) : Int × Nat :=
  instrs.foldl (fun acc i => simulateClicks i.direction i.distance.toNat acc) st

/-- Signed displacement of an instruction: `R` counts as `+d`, `L` as `-d`. -/
def signedDisplacement (i : Instruction) : Int :=
  if i.direction = 'R' then i.distance else -i.distance

/-- Net signed displacement of a sequence of instructions. -/
def netDisplacement (instrs : List Instruction) : Int :=
  (instrs.map signedDisplacement).sum

/-- Number of non-empty prefixes of `instrs` whose net displacement added to
`start` is divisible by 100. -/
def zeroPrefixCount (start : Int) (instrs : List Instruction) : Nat :=
  (instrs.inits.tail.filter
    (fun pre => decide ((100 : Int) ∣ start + netDisplacement pre))).length

/-- Number of `k` in `[1, d]` with `p - k` congruent to 0 modulo 100. -/
def leftZeroClicks (p d : Int) : Nat :=
  ((Finset.Icc 1 d).filter (fun k => p - k ≡ 0 [ZMOD 100])).card

/-- Number of `k` in `[1, d]` with `p + k` congruent to 0 modulo 100. -/
def rightZeroClicks (p d : Int) : Nat :=
  ((Finset.Icc 1 d).filter (fun k => p + k ≡ 0 [ZMOD 100])).card

/-- Number of clicks of one rotation at which the dial reads 0: `leftZeroClicks`
for the direction `L`, `rightZeroClicks` otherwise. -/
def zeroClicks (direction : Char) (p d : Int) : Nat :=
  if direction = 'L' then leftZeroClicks p d else rightZeroClicks p d

/-- Total distance travelled: the sum of the distances of all instructions. -/
def totalDistance (instrs : List Instruction) : Int :=
  (instrs.map (fun i => i.distance)).sum

/-- Number of instructions whose distance is 0. -/
def zeroDistanceCount (instrs : List Instruction) : Nat :=
  (instrs.filter (fun i => decide (i.distance = 0))).length

/-- A line of the form `^[LR]\d+$`: the letter `L` or `R` followed by one or
more decimal digits. -/
def matchesPattern (line : List Char) : Bool :=
  match line with
  | [] => false
  | c :: ds => (c = 'L' || c = 'R') && !ds.isEmpty && ds.all isdigit

/-- A well-formed input: every line is empty or of the form `^[LR]\d+$`. -/
def wellFormedInput (lines : List (List Char)) : Bool :=
  lines.all (fun line => line.isEmpty || matchesPattern line)

/-- The input with every empty line removed. -/
def withoutEmptyLines (lines : List (List Char)) : List (List Char) :=
  lines.filter (fun line => !line.isEmpty)

/-! ## The loop body in 32-bit arithmetic -/

/-- The value stored in a 32-bit two's complement `int` for the exact result
`x` of an arithmetic operation. -/
def wrap32 (x : Int) : Int :=
  (x + 2147483648) % 4294967296 - 2147483648

/-- The body of `if (direction == 'L')` (lines 73-78) with every `int`
operation reduced to 32 bits. -/
def leftBranch32 (s : DialState) (distance : Int) : DialState :=
  let firstK : Int := if s.position = 0 then DIAL_SIZE else s.position
  let zeroCountPart2 : Int :=
    if firstK ≤ distance then
      wrap32 (s.zeroCountPart2 +
        wrap32 (1 + Int.tdiv (wrap32 (distance - firstK)) DIAL_SIZE))
    else s.zeroCountPart2
  let position : Int :=
    Int.tmod (wrap32 (Int.tmod (wrap32 (s.position - distance)) DIAL_SIZE + DIAL_SIZE))
      DIAL_SIZE
  ⟨position, s.zeroCountPart1, zeroCountPart2⟩

/-- The body of `else if (direction == 'R')` (lines 84-89) with every `int`
operation reduced to 32 bits. -/
def rightBranch32 (s : DialState) (distance : Int) : DialState :=
  let firstK : Int := if s.position = 0 then DIAL_SIZE else wrap32 (DIAL_SIZE - s.position)
  let zeroCountPart2 : Int :=
    if firstK ≤ distance then
      wrap32 (s.zeroCountPart2 +
        wrap32 (1 + Int.tdiv (wrap32 (distance - firstK)) DIAL_SIZE))
    else s.zeroCountPart2
  let position : Int := Int.tmod (wrap32 (s.position + distance)) DIAL_SIZE
  ⟨position, s.zeroCountPart1, zeroCountPart2⟩

/-- The loop body after parsing (lines 39-95) with every `int` operation
reduced to 32 bits: the direction dispatch followed by the Part 1 test and
`zeroCountPart1++`. -/
def processInstruction32 (direction : Char) (distance : Int) (s : DialState) : DialState :=
  let s1 : DialState :=
    if direction = 'L' then leftBranch32 s distance
    else if direction = 'R' then rightBranch32 s distance
    else s
  if s1.position = 0 then
    ⟨s1.position, wrap32 (s1.zeroCountPart1 + 1), s1.zeroCountPart2⟩
  else s1

/-- The `while` loop over already parsed instructions, in 32-bit arithmetic. -/
def runInstructions32 (instrs : List Instruction) (s : DialState) : DialState :=
  instrs.foldl (fun st i => processInstruction32 i.direction i.distance st) s

/-- An instruction whose distance is an `int` and keeps `position + distance`
within `int` from every dial position: well formed, distance at most
`INT_MAX`, and at most `INT_MAX - 99` for the direction `R`. -/
def Instruction.InRange (i : Instruction) : Prop :=
  i.WellFormed ∧ i.distance ≤ INT_MAX ∧ (i.direction = 'R' → i.distance ≤ INT_MAX - 99)

instance (i : Instruction) : Decidable i.InRange :=
  inferInstanceAs (Decidable (i.WellFormed ∧ i.distance ≤ INT_MAX ∧
    (i.direction = 'R' → i.distance ≤ INT_MAX - 99)))

/-- The exact values of the arithmetic sub-expressions evaluated by the `L`
branch (lines 43, 74-78), the crossing count included. -/
def intermediatesLeft (position distance : Int) : List Int :=
  let firstK : Int := firstKLeft position
  (if firstK ≤ distance then
      [distance - firstK, Int.tdiv (distance - firstK) DIAL_SIZE,
        1 + Int.tdiv (distance - firstK) DIAL_SIZE]
    else []) ++
  [position - distance, Int.tmod (position - distance) DIAL_SIZE,
    Int.tmod (position - distance) DIAL_SIZE + DIAL_SIZE,
    Int.tmod (Int.tmod (position - distance) DIAL_SIZE + DIAL_SIZE) DIAL_SIZE]

/-- The exact values of the arithmetic sub-expressions evaluated by the `R`
branch (lines 84-89), the crossing count included. -/
def intermediatesRight (position distance : Int) : List Int :=
  let firstK : Int := firstKRight position
  (if position = 0 then [] else [DIAL_SIZE - position]) ++
  (if firstK ≤ distance then
      [distance - firstK, Int.tdiv (distance - firstK) DIAL_SIZE,
        1 + Int.tdiv (distance - firstK) DIAL_SIZE]
    else []) ++
  [position + distance, Int.tmod (position + distance) DIAL_SIZE]

/-! ## Arithmetic of truncating division by the dial size -/

theorem tmod_dial (a : Int) :
    Int.tmod a DIAL_SIZE = if 0 ≤ a then a % 100 else -((-a) % 100) := by
  unfold DIAL_SIZE
  split
  · next h => exact Int.tmod_eq_emod h (by decide)
  · next h =>
    have h1 : Int.tdiv a 100 = -((-a) / 100) := by
      rw [← Int.tdiv_eq_ediv (by omega) (by decide), Int.neg_tdiv, Int.neg_neg]
    rw [Int.tmod_def, h1]
    omega

theorem tdiv_dial_of_nonneg {a : Int} (h : 0 ≤ a) : Int.tdiv a DIAL_SIZE = a / 100 :=
  Int.tdiv_eq_ediv h (by decide)

theorem leftBranch_position (s : DialState) (d : Int) :
    (leftBranch s d).position = (s.position - d) % 100 := by
  simp only [leftBranch, tmod_dial]
  unfold DIAL_SIZE
  split_ifs <;> omega

theorem rightBranch_position (s : DialState) (d : Int)
    (h0 : 0 ≤ s.position) (h1 : s.position ≤ 99) (hd : 0 ≤ d) :
    (rightBranch s d).position = (s.position + d) % 100 := by
  simp only [rightBranch, tmod_dial]
  split_ifs <;> omega

theorem leftBranch_count (s : DialState) (d : Int)
    (h0 : 0 ≤ s.position) (h1 : s.position ≤ 99) (hd : 0 ≤ d) :
    (leftBranch s d).zeroCountPart2 =
      s.zeroCountPart2 + (d + 100 - firstKLeft s.position) / 100 := by
  simp only [leftBranch, firstKLeft]
  split_ifs with ha hb hb
  · rw [tdiv_dial_of_nonneg (by omega)]; unfold DIAL_SIZE at *; omega
  · unfold DIAL_SIZE at *; omega
  · rw [tdiv_dial_of_nonneg (by omega)]; omega
  · omega

theorem rightBranch_count (s : DialState) (d : Int)
    (h0 : 0 ≤ s.position) (h1 : s.position ≤ 99) (hd : 0 ≤ d) :
    (rightBranch s d).zeroCountPart2 =
      s.zeroCountPart2 + (d + 100 - firstKRight s.position) / 100 := by
  simp only [rightBranch, firstKRight]
  split_ifs with ha hb hb
  · rw [tdiv_dial_of_nonneg (by omega)]; unfold DIAL_SIZE at *; omega
  · unfold DIAL_SIZE at *; omega
  · rw [tdiv_dial_of_nonneg (by unfold DIAL_SIZE at *; omega)]; unfold DIAL_SIZE at *; omega
  · unfold DIAL_SIZE at *; omega

/-! ## Counting the clicks that read 0 -/

theorem card_filter_Icc_succ (P : Int → Prop) [DecidablePred P] (n : Nat) :
    ((Finset.Icc (1 : Int) ((n : Int) + 1)).filter P).card =
      ((Finset.Icc (1 : Int) (n : Int)).filter P).card + if P ((n : Int) + 1) then 1 else 0 := by
  have hIcc : Finset.Icc (1 : Int) ((n : Int) + 1) =
      insert ((n : Int) + 1) (Finset.Icc (1 : Int) (n : Int)) := by
    ext k
    simp only [Finset.mem_Icc, Finset.mem_insert]
    omega
  have hnot : ((n : Int) + 1) ∉ (Finset.Icc (1 : Int) (n : Int)).filter P := by
    simp only [Finset.mem_filter, Finset.mem_Icc]
    omega
  rw [hIcc, Finset.filter_insert]
  split_ifs with h
  · rw [Finset.card_insert_of_not_mem hnot]
  · simp

theorem leftZeroClicks_closed (p : Int) (h0 : 0 ≤ p) (h1 : p ≤ 99) (n : Nat) :
    (leftZeroClicks p n : Int) = ((n : Int) + 100 - firstKLeft p) / 100 := by
  induction n with
  | zero =>
    simp only [leftZeroClicks, firstKLeft, DIAL_SIZE]
    split_ifs <;> simp
    omega
  | succ n ih =>
    have hs := card_filter_Icc_succ (fun k => p - k ≡ 0 [ZMOD 100]) n
    unfold leftZeroClicks at ih ⊢
    rw [Nat.cast_succ, hs, Nat.cast_add, ih]
    simp only [firstKLeft, DIAL_SIZE, Int.ModEq]
    split_ifs <;> simp <;> omega

theorem rightZeroClicks_closed (p : Int) (h0 : 0 ≤ p) (h1 : p ≤ 99) (n : Nat) :
    (rightZeroClicks p n : Int) = ((n : Int) + 100 - firstKRight p) / 100 := by
  induction n with
  | zero =>
    simp only [rightZeroClicks, firstKRight, DIAL_SIZE]
    split_ifs <;> simp
    omega
  | succ n ih =>
    have hs := card_filter_Icc_succ (fun k => p + k ≡ 0 [ZMOD 100]) n
    unfold rightZeroClicks at ih ⊢
    rw [Nat.cast_succ, hs, Nat.cast_add, ih]
    simp only [firstKRight, DIAL_SIZE, Int.ModEq]
    split_ifs <;> simp <;> omega

/-! ## The loop body on a dial position in range -/

theorem processInstruction_left (d : Int) (s : DialState) :
    processInstruction 'L' d s =
      if (leftBranch s d).position = 0 then
        ⟨(leftBranch s d).position, (leftBranch s d).zeroCountPart1 + 1,
          (leftBranch s d).zeroCountPart2⟩
      else leftBranch s d := by
  simp [processInstruction]

theorem processInstruction_right (d : Int) (s : DialState) :
    processInstruction 'R' d s =
      if (rightBranch s d).position = 0 then
        ⟨(rightBranch s d).position, (rightBranch s d).zeroCountPart1 + 1,
          (rightBranch s d).zeroCountPart2⟩
      else rightBranch s d := by
  simp [processInstruction]

theorem processInstruction_left_position (d : Int) (s : DialState) :
    (processInstruction 'L' d s).position = (s.position - d) % 100 := by
  rw [processInstruction_left]
  split_ifs <;> simp [leftBranch_position]

theorem processInstruction_right_position (d : Int) (s : DialState)
    (h0 : 0 ≤ s.position) (h1 : s.position ≤ 99) (hd : 0 ≤ d) :
    (processInstruction 'R' d s).position = (s.position + d) % 100 := by
  rw [processInstruction_right]
  split_ifs <;> simp [rightBranch_position s d h0 h1 hd]

theorem processInstruction_left_count (d : Int) (s : DialState)
    (h0 : 0 ≤ s.position) (h1 : s.position ≤ 99) (hd : 0 ≤ d) :
    (processInstruction 'L' d s).zeroCountPart2 =
      s.zeroCountPart2 + (d + 100 - firstKLeft s.position) / 100 := by
  rw [processInstruction_left]
  split_ifs <;> simp [leftBranch_count s d h0 h1 hd]

theorem processInstruction_right_count (d : Int) (s : DialState)
    (h0 : 0 ≤ s.position) (h1 : s.position ≤ 99) (hd : 0 ≤ d) :
    (processInstruction 'R' d s).zeroCountPart2 =
      s.zeroCountPart2 + (d + 100 - firstKRight s.position) / 100 := by
  rw [processInstruction_right]
  split_ifs <;> simp [rightBranch_count s d h0 h1 hd]

theorem processInstruction_left_landed (d : Int) (s : DialState) :
    (processInstruction 'L' d s).zeroCountPart1 =
      s.zeroCountPart1 + if (s.position - d) % 100 = 0 then 1 else 0 := by
  rw [processInstruction_left]
  simp only [leftBranch_position]
  split_ifs <;> simp [leftBranch]

theorem processInstruction_right_landed (d : Int) (s : DialState)
    (h0 : 0 ≤ s.position) (h1 : s.position ≤ 99) (hd : 0 ≤ d) :
    (processInstruction 'R' d s).zeroCountPart1 =
      s.zeroCountPart1 + if (s.position + d) % 100 = 0 then 1 else 0 := by
  rw [processInstruction_right]
  simp only [rightBranch_position s d h0 h1 hd]
  split_ifs <;> simp [rightBranch]

/-! ## The click-by-click simulation in closed form -/

theorem simulateClicks_left (n : Nat) : ∀ (p : Int) (z : Nat), 0 ≤ p → p ≤ 99 →
    (simulateClicks 'L' n (p, z)).1 = (p - n) % 100 ∧
    ((simulateClicks 'L' n (p, z)).2 : Int) = z + ((n : Int) + 100 - firstKLeft p) / 100 := by
  induction n with
  | zero =>
    intro p z h0 h1
    simp only [simulateClicks, firstKLeft, DIAL_SIZE]
    split_ifs <;> (push_cast; omega)
  | succ n ih =>
    intro p z h0 h1
    have hn0 : 0 ≤ (p - 1) % 100 := by omega
    have hn1 : (p - 1) % 100 ≤ 99 := by omega
    simp only [simulateClicks, clickOnce, if_true]
    obtain ⟨e1, e2⟩ := ih ((p - 1) % 100)
      (if (p - 1) % 100 = 0 then z + 1 else z) hn0 hn1
    rw [e1, e2]
    simp only [firstKLeft, DIAL_SIZE]
    split_ifs <;> (push_cast; omega)

theorem simulateClicks_right (n : Nat) : ∀ (p : Int) (z : Nat), 0 ≤ p → p ≤ 99 →
    (simulateClicks 'R' n (p, z)).1 = (p + n) % 100 ∧
    ((simulateClicks 'R' n (p, z)).2 : Int) = z + ((n : Int) + 100 - firstKRight p) / 100 := by
  induction n with
  | zero =>
    intro p z h0 h1
    simp only [simulateClicks, firstKRight, DIAL_SIZE]
    split_ifs <;> (push_cast; omega)
  | succ n ih =>
    intro p z h0 h1
    have hn0 : 0 ≤ (p + 1) % 100 := by omega
    have hn1 : (p + 1) % 100 ≤ 99 := by omega
    have hLR : ¬ ('R' = 'L') := by decide
    simp only [simulateClicks, clickOnce, hLR, if_false]
    obtain ⟨e1, e2⟩ := ih ((p + 1) % 100)
      (if (p + 1) % 100 = 0 then z + 1 else z) hn0 hn1
    rw [e1, e2]
    simp only [firstKRight, DIAL_SIZE]
    split_ifs <;> (push_cast; omega)

/-! ## Whole runs -/

theorem wellFormed_cases (i : Instruction) (h : i.WellFormed) :
    (i.direction = 'L' ∨ i.direction = 'R') ∧ 0 ≤ i.distance := h

theorem processInstruction_position_range (direction : Char) (d : Int) (s : DialState)
    (h0 : 0 ≤ s.position) (h1 : s.position ≤ 99) (hd : 0 ≤ d) :
    0 ≤ (processInstruction direction d s).position ∧
      (processInstruction direction d s).position ≤ 99 := by
  by_cases hL : direction = 'L'
  · subst hL
    rw [processInstruction_left_position]
    omega
  · by_cases hR : direction = 'R'
    · subst hR
      rw [processInstruction_right_position d s h0 h1 hd]
      omega
    · simp only [processInstruction, hL, hR, if_false]
      split_ifs <;> exact ⟨h0, h1⟩

theorem runInstructions_cons (i : Instruction) (rest : List Instruction) (s : DialState) :
    runInstructions (i :: rest) s =
      runInstructions rest (processInstruction i.direction i.distance s) := rfl

theorem simulateRun_cons (i : Instruction) (rest : List Instruction) (st : Int × Nat) :
    simulateRun (i :: rest) st =
      simulateRun rest (simulateClicks i.direction i.distance.toNat st) := rfl

theorem runInstructions_position_range (instrs : List Instruction) :
    ∀ s : DialState, (∀ i ∈ instrs, 0 ≤ i.distance) → 0 ≤ s.position → s.position ≤ 99 →
      0 ≤ (runInstructions instrs s).position ∧ (runInstructions instrs s).position ≤ 99 := by
  induction instrs with
  | nil => intro s _ h0 h1; exact ⟨h0, h1⟩
  | cons i rest ih =>
    intro s hwf h0 h1
    have hd : 0 ≤ i.distance := hwf i (List.mem_cons_self _ _)
    obtain ⟨r0, r1⟩ := processInstruction_position_range i.direction i.distance s h0 h1 hd
    rw [runInstructions_cons]
    exact ih _ (fun j hj => hwf j (List.mem_cons_of_mem _ hj)) r0 r1

theorem run_matches_simulation (instrs : List Instruction) :
    ∀ (s : DialState) (st : Int × Nat), (∀ i ∈ instrs, i.WellFormed) →
      0 ≤ s.position → s.position ≤ 99 → st.1 = s.position →
      (st.2 : Int) = s.zeroCountPart2 →
      (simulateRun instrs st).1 = (runInstructions instrs s).position ∧
      ((simulateRun instrs st).2 : Int) = (runInstructions instrs s).zeroCountPart2 := by
  induction instrs with
  | nil => intro s st _ _ _ hp hz; exact ⟨hp, hz⟩
  | cons i rest ih =>
    intro s st hwf h0 h1 hp hz
    obtain ⟨hdir, hd⟩ := wellFormed_cases i (hwf i (List.mem_cons_self _ _))
    obtain ⟨r0, r1⟩ := processInstruction_position_range i.direction i.distance s h0 h1 hd
    have hcast : ((i.distance.toNat : Nat) : Int) = i.distance := Int.toNat_of_nonneg hd
    rw [runInstructions_cons, simulateRun_cons]
    refine ih _ _ (fun j hj => hwf j (List.mem_cons_of_mem _ hj)) r0 r1 ?_ ?_
    · obtain ⟨p, z⟩ := st
      simp only at hp hz
      subst hp
      rcases hdir with hL | hR
      · rw [hL, processInstruction_left_position,
          (simulateClicks_left i.distance.toNat _ z h0 h1).1, hcast]
      · rw [hR, processInstruction_right_position _ _ h0 h1 hd,
          (simulateClicks_right i.distance.toNat _ z h0 h1).1, hcast]
    · obtain ⟨p, z⟩ := st
      simp only at hp hz
      subst hp
      rcases hdir with hL | hR
      · rw [hL, processInstruction_left_count _ _ h0 h1 hd,
          (simulateClicks_left i.distance.toNat _ z h0 h1).2, hcast, hz]
      · rw [hR, processInstruction_right_count _ _ h0 h1 hd,
          (simulateClicks_right i.distance.toNat _ z h0 h1).2, hcast, hz]

/-! ## Landing on 0 and net displacement -/

theorem zeroPrefixCount_cons (a : Int) (i : Instruction) (rest : List Instruction) :
    zeroPrefixCount a (i :: rest) =
      (if (100 : Int) ∣ a + signedDisplacement i then 1 else 0) +
        zeroPrefixCount (a + signedDisplacement i) rest := by
  have hinits : rest.inits = [] :: rest.inits.tail := by cases rest <;> simp
  have htail : (i :: rest).inits.tail =
      [i] :: rest.inits.tail.map (fun l => i :: l) := by
    rw [List.inits_cons, List.tail_cons]
    nth_rewrite 1 [hinits]
    simp
  unfold zeroPrefixCount
  rw [htail, List.filter_cons]
  have hmap : (List.filter (fun pre => decide ((100 : Int) ∣ a + netDisplacement pre))
      (List.map (fun l => i :: l) rest.inits.tail)).length =
      (List.filter (fun pre => decide ((100 : Int) ∣ a + signedDisplacement i + netDisplacement pre))
        rest.inits.tail).length := by
    rw [List.filter_map, List.length_map]
    congr 2
    funext pre
    simp [netDisplacement, Int.add_assoc]
  have hhead : netDisplacement [i] = signedDisplacement i := by simp [netDisplacement]
  rw [hhead]
  by_cases h : (100 : Int) ∣ a + signedDisplacement i
  · simp only [h, decide_True, if_true, List.length_cons, hmap]
    omega
  · simp only [h, decide_False, Bool.false_eq_true, if_false, hmap]
    omega

theorem zeroPrefixCount_congr (instrs : List Instruction) :
    ∀ a b : Int, a % 100 = b % 100 → zeroPrefixCount a instrs = zeroPrefixCount b instrs := by
  induction instrs with
  | nil => intro a b _; rfl
  | cons i rest ih =>
    intro a b hab
    rw [zeroPrefixCount_cons, zeroPrefixCount_cons,
      ih (a + signedDisplacement i) (b + signedDisplacement i) (by omega)]
    congr 1
    split_ifs <;> omega

theorem processInstruction_landed (i : Instruction) (s : DialState) (h : i.WellFormed)
    (h0 : 0 ≤ s.position) (h1 : s.position ≤ 99) :
    (processInstruction i.direction i.distance s).position =
        (s.position + signedDisplacement i) % 100 ∧
      (processInstruction i.direction i.distance s).zeroCountPart1 =
        s.zeroCountPart1 + if (100 : Int) ∣ s.position + signedDisplacement i then 1 else 0 := by
  obtain ⟨hdir, hd⟩ := wellFormed_cases i h
  have hLR : ¬ (('L' : Char) = 'R') := by decide
  rcases hdir with hL | hR
  · rw [hL, processInstruction_left_position, processInstruction_left_landed]
    simp only [signedDisplacement, hL, hLR, if_false]
    constructor
    · congr 1
    · split_ifs <;> omega
  · rw [hR, processInstruction_right_position _ _ h0 h1 hd,
      processInstruction_right_landed _ _ h0 h1 hd]
    simp only [signedDisplacement, hR, if_true]
    constructor
    · trivial
    · split_ifs <;> omega

theorem run_landed_count (instrs : List Instruction) :
    ∀ s : DialState, (∀ i ∈ instrs, i.WellFormed) → 0 ≤ s.position → s.position ≤ 99 →
      (runInstructions instrs s).zeroCountPart1 =
        s.zeroCountPart1 + (zeroPrefixCount s.position instrs : Int) := by
  induction instrs with
  | nil => intro s _ _ _; simp [runInstructions, zeroPrefixCount]
  | cons i rest ih =>
    intro s hwf h0 h1
    have hi := hwf i (List.mem_cons_self _ _)
    obtain ⟨hpos, hcnt⟩ := processInstruction_landed i s hi h0 h1
    obtain ⟨r0, r1⟩ := processInstruction_position_range i.direction i.distance s h0 h1 hi.2
    rw [runInstructions_cons, ih _ (fun j hj => hwf j (List.mem_cons_of_mem _ hj)) r0 r1,
      hcnt, zeroPrefixCount_cons,
      zeroPrefixCount_congr rest _ (s.position + signedDisplacement i) (by rw [hpos]; omega)]
    push_cast
    split_ifs <;> omega

theorem netDisplacement_cons (i : Instruction) (rest : List Instruction) :
    netDisplacement (i :: rest) = signedDisplacement i + netDisplacement rest := by
  simp [netDisplacement]

theorem run_position (instrs : List Instruction) :
    ∀ s : DialState, (∀ i ∈ instrs, i.WellFormed) → 0 ≤ s.position → s.position ≤ 99 →
      (runInstructions instrs s).position = (s.position + netDisplacement instrs) % 100 := by
  induction instrs with
  | nil =>
    intro s _ h0 h1
    simp only [runInstructions, List.foldl_nil, netDisplacement, List.map_nil, List.sum_nil]
    omega
  | cons i rest ih =>
    intro s hwf h0 h1
    have hi := hwf i (List.mem_cons_self _ _)
    obtain ⟨hpos, _⟩ := processInstruction_landed i s hi h0 h1
    obtain ⟨r0, r1⟩ := processInstruction_position_range i.direction i.distance s h0 h1 hi.2
    rw [runInstructions_cons, ih _ (fun j hj => hwf j (List.mem_cons_of_mem _ hj)) r0 r1,
      hpos, netDisplacement_cons]
    omega

/-! ## Lines and parsed instructions -/

theorem runLines_eq_runInstructions (lines : List (List Char)) :
    ∀ (instrs : List Instruction) (s : DialState),
      List.Forall₂ (fun line i => ∃ rest, line = i.direction :: rest ∧
        stoi rest = some i.distance) lines instrs →
      runLines lines s = some (runInstructions instrs s) := by
  induction lines with
  | nil =>
    intro instrs s h
    cases h
    rfl
  | cons line rest ih =>
    intro instrs s h
    cases h with
    | cons hhead htail =>
      obtain ⟨tl, rfl, hstoi⟩ := hhead
      simp only [runLines, processLine, hstoi, runInstructions_cons]
      exact ih _ _ htail

/-! ## The claims -/

/-- C3: from a position `p` in `[0, 99]` and for a distance `d ≥ 0`, the
amount the `L` branch adds to the Part 2 counter is the number of `k` in
`[1, d]` with `p - k` congruent to 0 modulo 100. -/
theorem left_branch_adds_left_zero_clicks (s : DialState) (d : Int)
    (h0 : 0 ≤ s.position) (h1 : s.position ≤ 99) (hd : 0 ≤ d) :
    (leftBranch s d).zeroCountPart2 - s.zeroCountPart2 =
        (leftZeroClicks s.position d : Int) ∧
      (processInstruction 'L' d s).zeroCountPart2 - s.zeroCountPart2 =
        (leftZeroClicks s.position d : Int) := by
  have hcast : ((d.toNat : Nat) : Int) = d := Int.toNat_of_nonneg hd
  have hclosed := leftZeroClicks_closed s.position h0 h1 d.toNat
  rw [hcast] at hclosed
  rw [processInstruction_left_count d s h0 h1 hd, leftBranch_count s d h0 h1 hd, hclosed]
  omega

theorem left_branch_adds_left_zero_clicks_witness :
    (0 ≤ (⟨3, 0, 7⟩ : DialState).position ∧ (⟨3, 0, 7⟩ : DialState).position ≤ 99 ∧
      (0 : Int) ≤ 203) ∧
    ((leftBranch ⟨3, 0, 7⟩ 203).zeroCountPart2 - (⟨3, 0, 7⟩ : DialState).zeroCountPart2 =
        (leftZeroClicks (⟨3, 0, 7⟩ : DialState).position 203 : Int) ∧
      (processInstruction 'L' 203 ⟨3, 0, 7⟩).zeroCountPart2 -
          (⟨3, 0, 7⟩ : DialState).zeroCountPart2 =
        (leftZeroClicks (⟨3, 0, 7⟩ : DialState).position 203 : Int)) :=
  ⟨by decide, left_branch_adds_left_zero_clicks ⟨3, 0, 7⟩ 203 (by decide) (by decide) (by decide)⟩

/-- C4: from a position `p` in `[0, 99]` and for a distance `d ≥ 0`, the
amount the `R` branch adds to the Part 2 counter is the number of `k` in
`[1, d]` with `p + k` congruent to 0 modulo 100. -/
theorem right_branch_adds_right_zero_clicks (s : DialState) (d : Int)
    (h0 : 0 ≤ s.position) (h1 : s.position ≤ 99) (hd : 0 ≤ d) :
    (rightBranch s d).zeroCountPart2 - s.zeroCountPart2 =
        (rightZeroClicks s.position d : Int) ∧
      (processInstruction 'R' d s).zeroCountPart2 - s.zeroCountPart2 =
        (rightZeroClicks s.position d : Int) := by
  have hcast : ((d.toNat : Nat) : Int) = d := Int.toNat_of_nonneg hd
  have hclosed := rightZeroClicks_closed s.position h0 h1 d.toNat
  rw [hcast] at hclosed
  rw [processInstruction_right_count d s h0 h1 hd, rightBranch_count s d h0 h1 hd, hclosed]
  omega

theorem right_branch_adds_right_zero_clicks_witness :
    (0 ≤ (⟨97, 0, 7⟩ : DialState).position ∧ (⟨97, 0, 7⟩ : DialState).position ≤ 99 ∧
      (0 : Int) ≤ 203) ∧
    ((rightBranch ⟨97, 0, 7⟩ 203).zeroCountPart2 - (⟨97, 0, 7⟩ : DialState).zeroCountPart2 =
        (rightZeroClicks (⟨97, 0, 7⟩ : DialState).position 203 : Int) ∧
      (processInstruction 'R' 203 ⟨97, 0, 7⟩).zeroCountPart2 -
          (⟨97, 0, 7⟩ : DialState).zeroCountPart2 =
        (rightZeroClicks (⟨97, 0, 7⟩ : DialState).position 203 : Int)) :=
  ⟨by decide,
    right_branch_adds_right_zero_clicks ⟨97, 0, 7⟩ 203 (by decide) (by decide) (by decide)⟩

/-- C9: from a position `p` in `[0, 99]`, the instruction `L0` leaves the
position equal to `p` and adds 0 to the Part 2 counter. -/
theorem left_zero_distance_is_neutral (s : DialState)
    (h0 : 0 ≤ s.position) (h1 : s.position ≤ 99) :
    (processInstruction 'L' 0 s).position = s.position ∧
      (processInstruction 'L' 0 s).zeroCountPart2 = s.zeroCountPart2 + 0 ∧
      processLine ['L', '0'] s = some (processInstruction 'L' 0 s) := by
  refine ⟨?_, ?_, by rfl⟩
  · rw [processInstruction_left_position]
    omega
  · rw [processInstruction_left_count 0 s h0 h1 (by decide)]
    simp only [firstKLeft, DIAL_SIZE]
    split_ifs <;> omega

theorem left_zero_distance_is_neutral_witness :
    ((0 : Int) ≤ (⟨0, 2, 5⟩ : DialState).position ∧ (⟨0, 2, 5⟩ : DialState).position ≤ 99) ∧
    ((processInstruction 'L' 0 ⟨0, 2, 5⟩).position = (⟨0, 2, 5⟩ : DialState).position ∧
      (processInstruction 'L' 0 ⟨0, 2, 5⟩).zeroCountPart2 =
        (⟨0, 2, 5⟩ : DialState).zeroCountPart2 + 0 ∧
      processLine ['L', '0'] ⟨0, 2, 5⟩ = some (processInstruction 'L' 0 ⟨0, 2, 5⟩)) :=
  ⟨by decide, left_zero_distance_is_neutral ⟨0, 2, 5⟩ (by decide) (by decide)⟩

/-- C10: for an input without lines the loop ends in a state whose two
counters are 0, and the program prints 0 for Part 1 and 0 for Part 2. -/
theorem empty_input_yields_zero_counts (inputFile : String) :
    runLines [] initialState = some initialState ∧
      initialState.zeroCountPart1 = 0 ∧ initialState.zeroCountPart2 = 0 ∧
      main inputFile (some []) =
        .exited 0 ["Part 1 - The actual password is: 0",
          "Part 2 - The actual password is: 0"] [] := by
  refine ⟨rfl, rfl, rfl, ?_⟩
  rfl

/-! ## Monotone counters and bounds by the distance travelled -/

theorem runInstructions_append (a b : List Instruction) (s : DialState) :
    runInstructions (a ++ b) s = runInstructions b (runInstructions a s) := by
  simp [runInstructions, List.foldl_append]

theorem processInstruction_other (direction : Char) (d : Int) (s : DialState)
    (hL : direction ≠ 'L') (hR : direction ≠ 'R') :
    processInstruction direction d s =
      if s.position = 0 then ⟨s.position, s.zeroCountPart1 + 1, s.zeroCountPart2⟩ else s := by
  simp [processInstruction, hL, hR]

theorem processInstruction_counters_mono (direction : Char) (d : Int) (s : DialState)
    (h0 : 0 ≤ s.position) (h1 : s.position ≤ 99) (hd : 0 ≤ d) :
    s.zeroCountPart1 ≤ (processInstruction direction d s).zeroCountPart1 ∧
      s.zeroCountPart2 ≤ (processInstruction direction d s).zeroCountPart2 := by
  by_cases hL : direction = 'L'
  · subst hL
    rw [processInstruction_left_landed, processInstruction_left_count d s h0 h1 hd]
    simp only [firstKLeft, DIAL_SIZE]
    constructor
    · split_ifs <;> omega
    · split_ifs <;> omega
  · by_cases hR : direction = 'R'
    · subst hR
      rw [processInstruction_right_landed d s h0 h1 hd,
        processInstruction_right_count d s h0 h1 hd]
      simp only [firstKRight, DIAL_SIZE]
      constructor
      · split_ifs <;> omega
      · split_ifs <;> omega
    · rw [processInstruction_other direction d s hL hR]
      constructor
      · split_ifs
        · show s.zeroCountPart1 ≤ s.zeroCountPart1 + 1
          omega
        · exact Int.le_refl _
      · split_ifs <;> exact Int.le_refl _

theorem runInstructions_counters_mono (instrs : List Instruction) :
    ∀ s : DialState, (∀ i ∈ instrs, 0 ≤ i.distance) → 0 ≤ s.position → s.position ≤ 99 →
      s.zeroCountPart1 ≤ (runInstructions instrs s).zeroCountPart1 ∧
        s.zeroCountPart2 ≤ (runInstructions instrs s).zeroCountPart2 := by
  induction instrs with
  | nil => intro s _ _ _; exact ⟨Int.le_refl _, Int.le_refl _⟩
  | cons i rest ih =>
    intro s hwf h0 h1
    have hd : 0 ≤ i.distance := hwf i (List.mem_cons_self _ _)
    obtain ⟨r0, r1⟩ := processInstruction_position_range i.direction i.distance s h0 h1 hd
    obtain ⟨m1, m2⟩ := processInstruction_counters_mono i.direction i.distance s h0 h1 hd
    obtain ⟨n1, n2⟩ := ih _ (fun j hj => hwf j (List.mem_cons_of_mem _ hj)) r0 r1
    rw [runInstructions_cons]
    exact ⟨Int.le_trans m1 n1, Int.le_trans m2 n2⟩

theorem totalDistance_cons (i : Instruction) (rest : List Instruction) :
    totalDistance (i :: rest) = i.distance + totalDistance rest := by
  simp [totalDistance]

theorem processInstruction_crossed_le (i : Instruction) (s : DialState) (h : i.WellFormed)
    (h0 : 0 ≤ s.position) (h1 : s.position ≤ 99) :
    (processInstruction i.direction i.distance s).zeroCountPart2 ≤
      s.zeroCountPart2 + i.distance := by
  obtain ⟨hdir, hd⟩ := wellFormed_cases i h
  rcases hdir with hL | hR
  · rw [hL, processInstruction_left_count _ s h0 h1 hd]
    simp only [firstKLeft, DIAL_SIZE]
    split_ifs <;> omega
  · rw [hR, processInstruction_right_count _ s h0 h1 hd]
    simp only [firstKRight, DIAL_SIZE]
    split_ifs <;> omega

theorem run_crossed_le (instrs : List Instruction) :
    ∀ s : DialState, (∀ i ∈ instrs, i.WellFormed) → 0 ≤ s.position → s.position ≤ 99 →
      (runInstructions instrs s).zeroCountPart2 ≤ s.zeroCountPart2 + totalDistance instrs := by
  induction instrs with
  | nil => intro s _ _ _; simp [runInstructions, totalDistance]
  | cons i rest ih =>
    intro s hwf h0 h1
    have hi := hwf i (List.mem_cons_self _ _)
    obtain ⟨r0, r1⟩ := processInstruction_position_range i.direction i.distance s h0 h1 hi.2
    have hstep := processInstruction_crossed_le i s hi h0 h1
    have hrest := ih _ (fun j hj => hwf j (List.mem_cons_of_mem _ hj)) r0 r1
    rw [runInstructions_cons, totalDistance_cons]
    omega

theorem processInstruction_landed_le_crossed (i : Instruction) (s : DialState)
    (h : i.WellFormed) (hpos : 1 ≤ i.distance) (h0 : 0 ≤ s.position) (h1 : s.position ≤ 99) :
    (processInstruction i.direction i.distance s).zeroCountPart1 - s.zeroCountPart1 ≤
      (processInstruction i.direction i.distance s).zeroCountPart2 - s.zeroCountPart2 := by
  obtain ⟨hdir, hd⟩ := wellFormed_cases i h
  rcases hdir with hL | hR
  · rw [hL, processInstruction_left_count _ s h0 h1 hd, processInstruction_left_landed]
    simp only [firstKLeft, DIAL_SIZE]
    split_ifs <;> omega
  · rw [hR, processInstruction_right_count _ s h0 h1 hd,
      processInstruction_right_landed _ s h0 h1 hd]
    simp only [firstKRight, DIAL_SIZE]
    split_ifs <;> omega

theorem run_landed_le_crossed (instrs : List Instruction) :
    ∀ s : DialState, (∀ i ∈ instrs, i.WellFormed) → (∀ i ∈ instrs, 1 ≤ i.distance) →
      0 ≤ s.position → s.position ≤ 99 →
      (runInstructions instrs s).zeroCountPart1 - s.zeroCountPart1 ≤
        (runInstructions instrs s).zeroCountPart2 - s.zeroCountPart2 := by
  induction instrs with
  | nil => intro s _ _ _ _; simp [runInstructions]
  | cons i rest ih =>
    intro s hwf hpos h0 h1
    have hi := hwf i (List.mem_cons_self _ _)
    obtain ⟨r0, r1⟩ := processInstruction_position_range i.direction i.distance s h0 h1 hi.2
    have hstep := processInstruction_landed_le_crossed i s hi
      (hpos i (List.mem_cons_self _ _)) h0 h1
    have hrest := ih _ (fun j hj => hwf j (List.mem_cons_of_mem _ hj))
      (fun j hj => hpos j (List.mem_cons_of_mem _ hj)) r0 r1
    rw [runInstructions_cons]
    omega

theorem zeroDistanceCount_cons (i : Instruction) (rest : List Instruction) :
    (zeroDistanceCount (i :: rest) : Int) =
      (if i.distance = 0 then 1 else 0) + (zeroDistanceCount rest : Int) := by
  unfold zeroDistanceCount
  rw [List.filter_cons]
  by_cases h : i.distance = 0
  · simp only [h, decide_True, if_true, List.length_cons]
    push_cast
    omega
  · simp only [h, decide_False, Bool.false_eq_true, if_false]
    omega

theorem processInstruction_landed_le (i : Instruction) (s : DialState) (h : i.WellFormed)
    (h0 : 0 ≤ s.position) (h1 : s.position ≤ 99) :
    (processInstruction i.direction i.distance s).zeroCountPart1 ≤
      s.zeroCountPart1 + i.distance + (if i.distance = 0 then 1 else 0) := by
  obtain ⟨_, hcnt⟩ := processInstruction_landed i s h h0 h1
  have hd := h.2
  rw [hcnt]
  split_ifs <;> omega

theorem run_landed_le (instrs : List Instruction) :
    ∀ s : DialState, (∀ i ∈ instrs, i.WellFormed) → 0 ≤ s.position → s.position ≤ 99 →
      (runInstructions instrs s).zeroCountPart1 ≤
        s.zeroCountPart1 + totalDistance instrs + (zeroDistanceCount instrs : Int) := by
  induction instrs with
  | nil => intro s _ _ _; simp [runInstructions, totalDistance, zeroDistanceCount]
  | cons i rest ih =>
    intro s hwf h0 h1
    have hi := hwf i (List.mem_cons_self _ _)
    obtain ⟨r0, r1⟩ := processInstruction_position_range i.direction i.distance s h0 h1 hi.2
    have hstep := processInstruction_landed_le i s hi h0 h1
    have hrest := ih _ (fun j hj => hwf j (List.mem_cons_of_mem _ hj)) r0 r1
    rw [runInstructions_cons, totalDistance_cons, zeroDistanceCount_cons]
    omega

theorem zeroDistanceCount_eq_zero (instrs : List Instruction)
    (hpos : ∀ i ∈ instrs, 1 ≤ i.distance) : zeroDistanceCount instrs = 0 := by
  unfold zeroDistanceCount
  rw [List.length_eq_zero, List.filter_eq_nil_iff]
  intro i hi
  have := hpos i hi
  simp only [decide_eq_true_eq]
  omega

/-! ## Lines: empty lines, other letters, decimal distances -/

theorem runLines_withoutEmptyLines (lines : List (List Char)) :
    ∀ s : DialState, runLines (withoutEmptyLines lines) s = runLines lines s := by
  induction lines with
  | nil => intro s; rfl
  | cons line rest ih =>
    intro s
    cases line with
    | nil =>
      have h : withoutEmptyLines ([] :: rest) = withoutEmptyLines rest := by
        simp [withoutEmptyLines]
      rw [h, ih]
      rfl
    | cons c cs =>
      have h : withoutEmptyLines ((c :: cs) :: rest) = (c :: cs) :: withoutEmptyLines rest := by
        simp [withoutEmptyLines]
      rw [h]
      simp only [runLines]
      cases processLine (c :: cs) s with
      | none => rfl
      | some s1 => exact ih s1

theorem isdigit_bounds (c : Char) (h : isdigit c = true) : 48 ≤ c.toNat ∧ c.toNat ≤ 57 := by
  simpa [isdigit] using h

theorem isspace_of_isdigit (c : Char) (h : isdigit c = true) : isspace c = false := by
  obtain ⟨h1, h2⟩ := isdigit_bounds c h
  simp only [isspace, Bool.or_eq_false_iff, decide_eq_false_iff_not, Bool.and_eq_false_imp,
    decide_eq_true_eq]
  omega

theorem digitsValue_fold_nonneg (ds : List Char) :
    ∀ acc : Int, 0 ≤ acc → (∀ c ∈ ds, isdigit c = true) →
      0 ≤ ds.foldl (fun acc c => acc * 10 + ((c.toNat : Int) - 48)) acc := by
  induction ds with
  | nil => intro acc h _; exact h
  | cons c cs ih =>
    intro acc h hall
    obtain ⟨h1, _⟩ := isdigit_bounds c (hall c (List.mem_cons_self _ _))
    rw [List.foldl_cons]
    exact ih _ (by omega) (fun x hx => hall x (List.mem_cons_of_mem _ hx))

theorem digitsValue_nonneg (ds : List Char) (hall : ∀ c ∈ ds, isdigit c = true) :
    0 ≤ digitsValue ds :=
  digitsValue_fold_nonneg ds 0 (Int.le_refl 0) hall

theorem stoi_digits (ds : List Char) (hne : ds ≠ []) (hall : ∀ c ∈ ds, isdigit c = true)
    (hmax : digitsValue ds ≤ INT_MAX) : stoi ds = some (digitsValue ds) := by
  cases ds with
  | nil => exact absurd rfl hne
  | cons x xs =>
    have hx : isdigit x = true := hall x (List.mem_cons_self _ _)
    obtain ⟨b1, b2⟩ := isdigit_bounds x hx
    have hsp : isspace x = false := isspace_of_isdigit x hx
    have hminus : x ≠ '-' := by
      intro h
      rw [h] at b1
      exact absurd b1 (by decide)
    have hplus : x ≠ '+' := by
      intro h
      rw [h] at b1
      exact absurd b1 (by decide)
    have htake : List.takeWhile isdigit (x :: xs) = x :: xs :=
      List.takeWhile_eq_self_iff.mpr hall
    have hnn := digitsValue_nonneg (x :: xs) hall
    have hdrop : List.dropWhile isspace (x :: xs) = x :: xs := by
      simp [List.dropWhile_cons, hsp]
    have hrange : ¬ (digitsValue (x :: xs) < INT_MIN ∨ INT_MAX < digitsValue (x :: xs)) := by
      unfold INT_MIN INT_MAX at *
      omega
    unfold stoi
    simp only [hdrop]
    have hmatch : (match x :: xs with
        | '-' :: rest => (true, rest)
        | '+' :: rest => (false, rest)
        | _ => (false, x :: xs)) = (false, x :: xs) := by
      split
      · next heq =>
        simp only [List.cons.injEq] at heq
        exact absurd heq.1 hminus
      · next heq =>
        simp only [List.cons.injEq] at heq
        exact absurd heq.1 hplus
      · rfl
    rw [hmatch]
    simp [htake, hrange]

theorem processLine_pattern (line : List Char) (s : DialState)
    (hpat : matchesPattern line = true) (hmax : digitsValue line.tail ≤ INT_MAX) :
    ∃ s1, processLine line s = some s1 := by
  cases line with
  | nil => exact absurd hpat (by simp [matchesPattern])
  | cons c ds =>
    simp only [matchesPattern, Bool.and_eq_true, Bool.not_eq_true', List.isEmpty_eq_false,
      List.all_eq_true] at hpat
    obtain ⟨⟨_, hne⟩, hall⟩ := hpat
    have hstoi := stoi_digits ds hne hall hmax
    exact ⟨processInstruction c (digitsValue ds) s, by simp [processLine, hstoi]⟩

theorem runLines_pattern (lines : List (List Char)) :
    ∀ s : DialState,
      (∀ line ∈ lines, line = [] ∨
        (matchesPattern line = true ∧ digitsValue line.tail ≤ INT_MAX)) →
      ∃ s1, runLines lines s = some s1 := by
  induction lines with
  | nil => intro s _; exact ⟨s, rfl⟩
  | cons line rest ih =>
    intro s h
    have hrest : ∀ l ∈ rest, l = [] ∨
        (matchesPattern l = true ∧ digitsValue l.tail ≤ INT_MAX) :=
      fun l hl => h l (List.mem_cons_of_mem _ hl)
    rcases h line (List.mem_cons_self _ _) with hnil | ⟨hpat, hmax⟩
    · subst hnil
      exact ih s hrest
    · obtain ⟨s1, hs1⟩ := processLine_pattern line s hpat hmax
      obtain ⟨s2, hs2⟩ := ih s1 hrest
      exact ⟨s2, by simp [runLines, hs1, hs2]⟩

/-! ## 32-bit arithmetic -/

theorem wrap32_of_range (x : Int) (h0 : INT_MIN ≤ x) (h1 : x ≤ INT_MAX) : wrap32 x = x := by
  unfold INT_MIN at h0
  unfold INT_MAX at h1
  unfold wrap32
  omega

theorem intermediatesLeft_range (p d : Int) (h0 : 0 ≤ p) (h1 : p ≤ 99) (hd0 : 0 ≤ d)
    (hd1 : d ≤ 2147483648 - 100) :
    ∀ v ∈ intermediatesLeft p d, INT_MIN ≤ v ∧ v ≤ INT_MAX := by
  intro v hv
  simp only [intermediatesLeft, firstKLeft, tmod_dial, List.mem_append, List.mem_cons,
    List.mem_singleton, List.not_mem_nil, or_false] at hv
  unfold INT_MIN INT_MAX
  unfold DIAL_SIZE at hv
  rcases hv with hv | hv
  · split_ifs at hv with ha hb hb
    · rw [Int.tdiv_eq_ediv (show (0 : Int) ≤ d - 100 by omega) (by decide)] at hv
      simp only [List.mem_cons, List.mem_singleton, List.not_mem_nil, or_false] at hv
      rcases hv with rfl | rfl | rfl <;> omega
    · simp at hv
    · rw [Int.tdiv_eq_ediv (show (0 : Int) ≤ d - p by omega) (by decide)] at hv
      simp only [List.mem_cons, List.mem_singleton, List.not_mem_nil, or_false] at hv
      rcases hv with rfl | rfl | rfl <;> omega
    · simp at hv
  · rcases hv with rfl | rfl | rfl | rfl <;> omega

theorem intermediatesRight_range (p d : Int) (h0 : 0 ≤ p) (h1 : p ≤ 99) (hd0 : 0 ≤ d)
    (hd1 : d ≤ 2147483648 - 100) :
    ∀ v ∈ intermediatesRight p d, INT_MIN ≤ v ∧ v ≤ INT_MAX := by
  intro v hv
  simp only [intermediatesRight, firstKRight, tmod_dial, List.mem_append, List.mem_cons,
    List.mem_singleton, List.not_mem_nil, or_false] at hv
  unfold INT_MIN INT_MAX
  unfold DIAL_SIZE at hv
  rcases hv with (hv | hv) | hv
  · split_ifs at hv
    · simp at hv
    · simp only [List.mem_singleton] at hv
      omega
  · split_ifs at hv with ha hb hb
    · rw [Int.tdiv_eq_ediv (show (0 : Int) ≤ d - 100 by omega) (by decide)] at hv
      simp only [List.mem_cons, List.mem_singleton, List.not_mem_nil, or_false] at hv
      rcases hv with rfl | rfl | rfl <;> omega
    · simp at hv
    · rw [Int.tdiv_eq_ediv (show (0 : Int) ≤ d - (100 - p) by omega) (by decide)] at hv
      simp only [List.mem_cons, List.mem_singleton, List.not_mem_nil, or_false] at hv
      rcases hv with rfl | rfl | rfl <;> omega
    · simp at hv
  · rcases hv with rfl | rfl <;> omega

theorem rightBranch32_wraps_above_bound :
    (rightBranch32 ⟨99, 0, 0⟩ (2 ^ 31 - 99)).position = -48 ∧
      (rightBranch ⟨99, 0, 0⟩ (2 ^ 31 - 99)).position = 48 := by
  decide

/-! ## The claims, continued -/

/-- C11: for every list of input lines, the run on the list and the run on
the list with every empty line removed end in the same position and the same
two counters, and the program produces the same result. -/
theorem empty_lines_are_skipped (inputFile : String) (lines : List (List Char))
    (s : DialState) :
    processLine [] s = some s ∧
      runLines (withoutEmptyLines lines) s = runLines lines s ∧
      main inputFile (some (withoutEmptyLines lines)) = main inputFile (some lines) := by
  refine ⟨rfl, runLines_withoutEmptyLines lines s, ?_⟩
  simp only [main, runLines_withoutEmptyLines lines initialState]

/-- C12 (as stated, refuted): the input whose only line is `R2147483648` is
well formed, the file can be opened, and the program ends through the uncaught
exception of `std::stoi` instead of returning status 0 with the two count lines. -/
theorem well_formed_input_may_terminate :
    wellFormedInput [['R', '2', '1', '4', '7', '4', '8', '3', '6', '4', '8']] = true ∧
      main "input.txt" (some [['R', '2', '1', '4', '7', '4', '8', '3', '6', '4', '8']]) =
        ProgramResult.terminated := by
  constructor
  · decide
  · decide

/-- C12 (amended): the program returns status 1 and prints nothing to standard
output when the input cannot be opened; it returns status 0 and prints exactly
the Part 1 line followed by the Part 2 line for every input that can be opened
and whose lines are empty or of the form `^[LR]\d+$` with a distance of at most
2147483647. -/
theorem exit_status_and_output (inputFile : String) (lines : List (List Char))
    (hwf : ∀ line ∈ lines, line = [] ∨
      (matchesPattern line = true ∧ digitsValue line.tail ≤ INT_MAX)) :
    main inputFile none =
        .exited 1 [] ["Error: Could not open file " ++ inputFile] ∧
      ∃ s : DialState, runLines lines initialState = some s ∧
        main inputFile (some lines) =
          .exited 0
            ["Part 1 - The actual password is: " ++ toString s.zeroCountPart1,
             "Part 2 - The actual password is: " ++ toString s.zeroCountPart2] [] := by
  refine ⟨rfl, ?_⟩
  obtain ⟨s, hs⟩ := runLines_pattern lines initialState hwf
  exact ⟨s, hs, by simp only [main, hs]⟩

theorem exit_status_and_output_witness :
    (∀ line ∈ [['R', '5', '0'], [], ['L', '2', '5', '0']], line = [] ∨
      (matchesPattern line = true ∧ digitsValue line.tail ≤ INT_MAX)) ∧
    (main "input.txt" none =
        .exited 1 [] ["Error: Could not open file " ++ "input.txt"] ∧
      ∃ s : DialState, runLines [['R', '5', '0'], [], ['L', '2', '5', '0']] initialState = some s ∧
        main "input.txt" (some [['R', '5', '0'], [], ['L', '2', '5', '0']]) =
          .exited 0
            ["Part 1 - The actual password is: " ++ toString s.zeroCountPart1,
             "Part 2 - The actual password is: " ++ toString s.zeroCountPart2] []) :=
  ⟨by decide, exit_status_and_output "input.txt" _ (by decide)⟩

/-- C14: for every sequence of well-formed instructions processed from the
start position 50, the final Part 2 counter is at most the sum of the
distances of the instructions. -/
theorem part2_counter_le_total_distance (instrs : List Instruction)
    (hwf : ∀ i ∈ instrs, i.WellFormed) :
    (runInstructions instrs initialState).zeroCountPart2 ≤ totalDistance instrs := by
  have h := run_crossed_le instrs initialState hwf (by decide) (by decide)
  simpa [initialState] using h

theorem part2_counter_le_total_distance_witness :
    (∀ i ∈ [(⟨'R', 50⟩ : Instruction), ⟨'L', 0⟩, ⟨'L', 250⟩], i.WellFormed) ∧
    (runInstructions [⟨'R', 50⟩, ⟨'L', 0⟩, ⟨'L', 250⟩] initialState).zeroCountPart2 ≤
      totalDistance [⟨'R', 50⟩, ⟨'L', 0⟩, ⟨'L', 250⟩] :=
  ⟨by decide, part2_counter_le_total_distance _ (by decide)⟩

set_option maxRecDepth 100000 in
/-- C15 (as stated, refuted): after `R50` followed by fifty times `L0` the
total distance travelled is 50 and the Part 1 counter is 51. -/
theorem part1_counter_exceeds_total_distance :
    (∀ i ∈ (⟨'R', 50⟩ : Instruction) :: List.replicate 50 ⟨'L', 0⟩, i.WellFormed) ∧
      totalDistance ((⟨'R', 50⟩ : Instruction) :: List.replicate 50 ⟨'L', 0⟩) = 50 ∧
      (runInstructions ((⟨'R', 50⟩ : Instruction) :: List.replicate 50 ⟨'L', 0⟩)
        initialState).zeroCountPart1 = 51 ∧
      ¬ ((runInstructions ((⟨'R', 50⟩ : Instruction) :: List.replicate 50 ⟨'L', 0⟩)
          initialState).zeroCountPart1 ≤
        totalDistance ((⟨'R', 50⟩ : Instruction) :: List.replicate 50 ⟨'L', 0⟩)) := by
  decide

/-- C15 (amended): for every sequence of well-formed instructions processed
from the start position 50, the final Part 1 counter is at most the total
distance travelled plus the number of instructions of distance 0; it is at
most the total distance travelled when every distance is at least 1. -/
theorem part1_counter_le_total_distance (instrs : List Instruction)
    (hwf : ∀ i ∈ instrs, i.WellFormed) :
    (runInstructions instrs initialState).zeroCountPart1 ≤
        totalDistance instrs + (zeroDistanceCount instrs : Int) ∧
      ((∀ i ∈ instrs, 1 ≤ i.distance) →
        (runInstructions instrs initialState).zeroCountPart1 ≤ totalDistance instrs) := by
  have h := run_landed_le instrs initialState hwf (by decide) (by decide)
  have h2 : (runInstructions instrs initialState).zeroCountPart1 ≤
      totalDistance instrs + (zeroDistanceCount instrs : Int) := by
    simpa [initialState] using h
  refine ⟨h2, fun hpos => ?_⟩
  rw [zeroDistanceCount_eq_zero instrs hpos] at h2
  simpa using h2

theorem part1_counter_le_total_distance_witness :
    (∀ i ∈ [(⟨'R', 50⟩ : Instruction), ⟨'L', 0⟩, ⟨'L', 200⟩], i.WellFormed) ∧
    ((runInstructions [⟨'R', 50⟩, ⟨'L', 0⟩, ⟨'L', 200⟩] initialState).zeroCountPart1 ≤
        totalDistance [⟨'R', 50⟩, ⟨'L', 0⟩, ⟨'L', 200⟩] +
          (zeroDistanceCount [⟨'R', 50⟩, ⟨'L', 0⟩, ⟨'L', 200⟩] : Int) ∧
      ((∀ i ∈ [(⟨'R', 50⟩ : Instruction), ⟨'L', 0⟩, ⟨'L', 200⟩], 1 ≤ i.distance) →
        (runInstructions [⟨'R', 50⟩, ⟨'L', 0⟩, ⟨'L', 200⟩] initialState).zeroCountPart1 ≤
          totalDistance [⟨'R', 50⟩, ⟨'L', 0⟩, ⟨'L', 200⟩])) :=
  ⟨by decide, part1_counter_le_total_distance _ (by decide)⟩

/-- C16: there is a sequence of well-formed instructions, processed from the
start position 50, whose final Part 2 counter is strictly less than its final
Part 1 counter (`R50` followed by `L0`). -/
theorem crossed_may_be_less_than_landed :
    ∃ instrs : List Instruction, (∀ i ∈ instrs, i.WellFormed) ∧
      (runInstructions instrs initialState).zeroCountPart2 <
        (runInstructions instrs initialState).zeroCountPart1 :=
  ⟨[⟨'R', 50⟩, ⟨'L', 0⟩], by decide, by decide⟩

/-- C20: from a position in `[0, 99]` and for a distance `d` with
`0 ≤ d ≤ 2^31 - 100`, every arithmetic sub-expression of the `L` and of the `R`
branch has a value in the signed 32-bit range, and the new position and the
crossing count computed with 32-bit arithmetic equal those computed with exact
integers. -/
theorem int32_arithmetic_is_exact (s : DialState) (d : Int)
    (h0 : 0 ≤ s.position) (h1 : s.position ≤ 99) (hd0 : 0 ≤ d) (hd1 : d ≤ 2 ^ 31 - 100) :
    (∀ v ∈ intermediatesLeft s.position d, INT_MIN ≤ v ∧ v ≤ INT_MAX) ∧
    (∀ v ∈ intermediatesRight s.position d, INT_MIN ≤ v ∧ v ≤ INT_MAX) ∧
    (leftBranch32 s d).position = (leftBranch s d).position ∧
    (rightBranch32 s d).position = (rightBranch s d).position ∧
    (leftBranch32 ⟨s.position, s.zeroCountPart1, 0⟩ d).zeroCountPart2 =
      (leftBranch s d).zeroCountPart2 - s.zeroCountPart2 ∧
    (rightBranch32 ⟨s.position, s.zeroCountPart1, 0⟩ d).zeroCountPart2 =
      (rightBranch s d).zeroCountPart2 - s.zeroCountPart2 := by
  have hd2 : d ≤ 2147483648 - 100 := by
    have : (2 : Int) ^ 31 = 2147483648 := by norm_num
    omega
  refine ⟨intermediatesLeft_range _ d h0 h1 hd0 hd2,
    intermediatesRight_range _ d h0 h1 hd0 hd2, ?_, ?_, ?_, ?_⟩
  · simp only [leftBranch32, leftBranch, tmod_dial, wrap32]
    unfold DIAL_SIZE
    split_ifs <;> omega
  · simp only [rightBranch32, rightBranch, tmod_dial, wrap32]
    split_ifs <;> omega
  · simp only [leftBranch32, leftBranch, firstKLeft]
    unfold DIAL_SIZE
    split_ifs with ha hb hb
    · have e1 : wrap32 (d - 100) = d - 100 :=
        wrap32_of_range _ (by unfold INT_MIN; omega) (by unfold INT_MAX; omega)
      rw [e1, Int.tdiv_eq_ediv (show (0 : Int) ≤ d - 100 by omega) (by decide)]
      simp only [wrap32]
      omega
    · omega
    · have e1 : wrap32 (d - s.position) = d - s.position :=
        wrap32_of_range _ (by unfold INT_MIN; omega) (by unfold INT_MAX; omega)
      rw [e1, Int.tdiv_eq_ediv (show (0 : Int) ≤ d - s.position by omega) (by decide)]
      simp only [wrap32]
      omega
    · omega
  · have e0 : wrap32 (100 - s.position) = 100 - s.position :=
      wrap32_of_range _ (by unfold INT_MIN; omega) (by unfold INT_MAX; omega)
    simp only [rightBranch32, rightBranch, firstKRight]
    unfold DIAL_SIZE
    rw [e0]
    split_ifs with ha hb hb
    · have e1 : wrap32 (d - 100) = d - 100 :=
        wrap32_of_range _ (by unfold INT_MIN; omega) (by unfold INT_MAX; omega)
      rw [e1, Int.tdiv_eq_ediv (show (0 : Int) ≤ d - 100 by omega) (by decide)]
      simp only [wrap32]
      omega
    · omega
    · have e1 : wrap32 (d - (100 - s.position)) = d - (100 - s.position) :=
        wrap32_of_range _ (by unfold INT_MIN; omega) (by unfold INT_MAX; omega)
      rw [e1, Int.tdiv_eq_ediv (show (0 : Int) ≤ d - (100 - s.position) by omega) (by decide)]
      simp only [wrap32]
      omega
    · omega

theorem int32_arithmetic_is_exact_witness :
    ((0 ≤ (⟨99, 0, 5⟩ : DialState).position ∧ (⟨99, 0, 5⟩ : DialState).position ≤ 99) ∧
      (0 : Int) ≤ 2147483548 ∧ (2147483548 : Int) ≤ 2 ^ 31 - 100) ∧
    ((∀ v ∈ intermediatesLeft (⟨99, 0, 5⟩ : DialState).position 2147483548,
        INT_MIN ≤ v ∧ v ≤ INT_MAX) ∧
      (∀ v ∈ intermediatesRight (⟨99, 0, 5⟩ : DialState).position 2147483548,
        INT_MIN ≤ v ∧ v ≤ INT_MAX) ∧
      (leftBranch32 ⟨99, 0, 5⟩ 2147483548).position =
        (leftBranch ⟨99, 0, 5⟩ 2147483548).position ∧
      (rightBranch32 ⟨99, 0, 5⟩ 2147483548).position =
        (rightBranch ⟨99, 0, 5⟩ 2147483548).position ∧
      (leftBranch32 ⟨(⟨99, 0, 5⟩ : DialState).position,
          (⟨99, 0, 5⟩ : DialState).zeroCountPart1, 0⟩ 2147483548).zeroCountPart2 =
        (leftBranch ⟨99, 0, 5⟩ 2147483548).zeroCountPart2 -
          (⟨99, 0, 5⟩ : DialState).zeroCountPart2 ∧
      (rightBranch32 ⟨(⟨99, 0, 5⟩ : DialState).position,
          (⟨99, 0, 5⟩ : DialState).zeroCountPart1, 0⟩ 2147483548).zeroCountPart2 =
        (rightBranch ⟨99, 0, 5⟩ 2147483548).zeroCountPart2 -
          (⟨99, 0, 5⟩ : DialState).zeroCountPart2) :=
  ⟨by decide,
    int32_arithmetic_is_exact ⟨99, 0, 5⟩ 2147483548 (by decide) (by decide) (by decide)
      (by decide)⟩

/-! ## The 32-bit loop body against the exact one -/

theorem processInstruction32_left (d : Int) (s : DialState) :
    processInstruction32 'L' d s =
      if (leftBranch32 s d).position = 0 then
        ⟨(leftBranch32 s d).position, wrap32 ((leftBranch32 s d).zeroCountPart1 + 1),
          (leftBranch32 s d).zeroCountPart2⟩
      else leftBranch32 s d := by
  simp [processInstruction32]

theorem processInstruction32_right (d : Int) (s : DialState) :
    processInstruction32 'R' d s =
      if (rightBranch32 s d).position = 0 then
        ⟨(rightBranch32 s d).position, wrap32 ((rightBranch32 s d).zeroCountPart1 + 1),
          (rightBranch32 s d).zeroCountPart2⟩
      else rightBranch32 s d := by
  simp [processInstruction32]

theorem leftBranch32_position (s : DialState) (d : Int)
    (h0 : 0 ≤ s.position) (h1 : s.position ≤ 99) (hd0 : 0 ≤ d) (hd1 : d ≤ INT_MAX) :
    (leftBranch32 s d).position = (s.position - d) % 100 := by
  unfold INT_MAX at hd1
  simp only [leftBranch32, tmod_dial, wrap32]
  unfold DIAL_SIZE
  split_ifs <;> omega

theorem rightBranch32_position (s : DialState) (d : Int)
    (h0 : 0 ≤ s.position) (hd0 : 0 ≤ d) (hsum : s.position + d ≤ INT_MAX) :
    (rightBranch32 s d).position = (s.position + d) % 100 := by
  unfold INT_MAX at hsum
  simp only [rightBranch32, tmod_dial, wrap32]
  split_ifs <;> omega

theorem leftBranch32_count (s : DialState) (d : Int)
    (h0 : 0 ≤ s.position) (h1 : s.position ≤ 99) (hd0 : 0 ≤ d) (hd1 : d ≤ INT_MAX)
    (hc0 : INT_MIN ≤ s.zeroCountPart2) (hc1 : s.zeroCountPart2 ≤ INT_MAX) :
    (leftBranch32 s d).zeroCountPart2 =
      wrap32 (s.zeroCountPart2 + (d + 100 - firstKLeft s.position) / 100) := by
  unfold INT_MAX at hd1 hc1
  unfold INT_MIN at hc0
  simp only [leftBranch32, firstKLeft]
  unfold DIAL_SIZE
  split_ifs with ha hb hb
  · have e1 : wrap32 (d - 100) = d - 100 :=
      wrap32_of_range _ (by unfold INT_MIN; omega) (by unfold INT_MAX; omega)
    rw [e1, Int.tdiv_eq_ediv (show (0 : Int) ≤ d - 100 by omega) (by decide)]
    simp only [wrap32]
    omega
  · simp only [wrap32]
    omega
  · have e1 : wrap32 (d - s.position) = d - s.position :=
      wrap32_of_range _ (by unfold INT_MIN; omega) (by unfold INT_MAX; omega)
    rw [e1, Int.tdiv_eq_ediv (show (0 : Int) ≤ d - s.position by omega) (by decide)]
    simp only [wrap32]
    omega
  · simp only [wrap32]
    omega

theorem rightBranch32_count (s : DialState) (d : Int)
    (h0 : 0 ≤ s.position) (h1 : s.position ≤ 99) (hd0 : 0 ≤ d) (hd1 : d ≤ INT_MAX)
    (hc0 : INT_MIN ≤ s.zeroCountPart2) (hc1 : s.zeroCountPart2 ≤ INT_MAX) :
    (rightBranch32 s d).zeroCountPart2 =
      wrap32 (s.zeroCountPart2 + (d + 100 - firstKRight s.position) / 100) := by
  unfold INT_MAX at hd1 hc1
  unfold INT_MIN at hc0
  have e0 : wrap32 (100 - s.position) = 100 - s.position :=
    wrap32_of_range _ (by unfold INT_MIN; omega) (by unfold INT_MAX; omega)
  simp only [rightBranch32, firstKRight]
  unfold DIAL_SIZE
  rw [e0]
  split_ifs with ha hb hb
  · have e1 : wrap32 (d - 100) = d - 100 :=
      wrap32_of_range _ (by unfold INT_MIN; omega) (by unfold INT_MAX; omega)
    rw [e1, Int.tdiv_eq_ediv (show (0 : Int) ≤ d - 100 by omega) (by decide)]
    simp only [wrap32]
    omega
  · simp only [wrap32]
    omega
  · have e1 : wrap32 (d - (100 - s.position)) = d - (100 - s.position) :=
      wrap32_of_range _ (by unfold INT_MIN; omega) (by unfold INT_MAX; omega)
    rw [e1, Int.tdiv_eq_ediv (show (0 : Int) ≤ d - (100 - s.position) by omega) (by decide)]
    simp only [wrap32]
    omega
  · simp only [wrap32]
    omega

theorem processInstruction32_left_fields (d : Int) (s : DialState) :
    (processInstruction32 'L' d s).position = (leftBranch32 s d).position ∧
      (processInstruction32 'L' d s).zeroCountPart2 = (leftBranch32 s d).zeroCountPart2 ∧
      (processInstruction32 'L' d s).zeroCountPart1 =
        if (leftBranch32 s d).position = 0 then wrap32 (s.zeroCountPart1 + 1)
        else s.zeroCountPart1 := by
  have hc : (leftBranch32 s d).zeroCountPart1 = s.zeroCountPart1 := rfl
  rw [processInstruction32_left]
  split_ifs with h
  · exact ⟨rfl, rfl, by rw [hc]⟩
  · exact ⟨rfl, rfl, hc⟩

theorem processInstruction32_right_fields (d : Int) (s : DialState) :
    (processInstruction32 'R' d s).position = (rightBranch32 s d).position ∧
      (processInstruction32 'R' d s).zeroCountPart2 = (rightBranch32 s d).zeroCountPart2 ∧
      (processInstruction32 'R' d s).zeroCountPart1 =
        if (rightBranch32 s d).position = 0 then wrap32 (s.zeroCountPart1 + 1)
        else s.zeroCountPart1 := by
  have hc : (rightBranch32 s d).zeroCountPart1 = s.zeroCountPart1 := rfl
  rw [processInstruction32_right]
  split_ifs with h
  · exact ⟨rfl, rfl, by rw [hc]⟩
  · exact ⟨rfl, rfl, hc⟩

theorem inRange_cases (i : Instruction) (h : i.InRange) :
    i.WellFormed ∧ i.distance ≤ INT_MAX ∧ (i.direction = 'R' → i.distance ≤ INT_MAX - 99) := h

theorem processInstruction32_agrees (i : Instruction) (t s : DialState) (hi : i.InRange)
    (hp : t.position = s.position) (h0 : 0 ≤ s.position) (h1 : s.position ≤ 99) :
    (processInstruction32 i.direction i.distance t).position =
        (processInstruction i.direction i.distance s).position ∧
      (t.zeroCountPart2 = s.zeroCountPart2 → INT_MIN ≤ s.zeroCountPart2 →
        (processInstruction i.direction i.distance s).zeroCountPart2 ≤ INT_MAX →
        (processInstruction32 i.direction i.distance t).zeroCountPart2 =
          (processInstruction i.direction i.distance s).zeroCountPart2) ∧
      (t.zeroCountPart1 = s.zeroCountPart1 → INT_MIN ≤ s.zeroCountPart1 →
        (processInstruction i.direction i.distance s).zeroCountPart1 ≤ INT_MAX →
        (processInstruction32 i.direction i.distance t).zeroCountPart1 =
          (processInstruction i.direction i.distance s).zeroCountPart1) := by
  obtain ⟨hwf, hmax, hR⟩ := inRange_cases i hi
  obtain ⟨hdir, hd⟩ := wellFormed_cases i hwf
  have t0 : 0 ≤ t.position := by omega
  have t1 : t.position ≤ 99 := by omega
  rcases hdir with hL | hRdir
  · rw [hL]
    obtain ⟨f1, f2, f3⟩ := processInstruction32_left_fields i.distance t
    have hpos : (leftBranch32 t i.distance).position = (s.position - i.distance) % 100 := by
      rw [leftBranch32_position t _ t0 t1 hd hmax, hp]
    refine ⟨?_, ?_, ?_⟩
    · rw [f1, hpos, processInstruction_left_position]
    · intro hc hmin hroom
      rw [processInstruction_left_count _ s h0 h1 hd] at hroom ⊢
      have hA : 0 ≤ (i.distance + 100 - firstKLeft s.position) / 100 := by
        simp only [firstKLeft, DIAL_SIZE]
        split_ifs <;> omega
      rw [f2, leftBranch32_count t _ t0 t1 hd hmax (by omega) (by omega), hp, hc]
      exact wrap32_of_range _ (by omega) hroom
    · intro hc hmin hroom
      rw [processInstruction_left_landed] at hroom ⊢
      rw [f3, hpos, hc]
      split_ifs with hz
      · rw [if_pos hz] at hroom
        exact wrap32_of_range _ (by omega) hroom
      · omega
  · rw [hRdir]
    have hbound := hR hRdir
    have hsum : t.position + i.distance ≤ INT_MAX := by
      unfold INT_MAX at hbound ⊢
      omega
    obtain ⟨f1, f2, f3⟩ := processInstruction32_right_fields i.distance t
    have hpos : (rightBranch32 t i.distance).position = (s.position + i.distance) % 100 := by
      rw [rightBranch32_position t _ t0 hd hsum, hp]
    refine ⟨?_, ?_, ?_⟩
    · rw [f1, hpos, processInstruction_right_position _ s h0 h1 hd]
    · intro hc hmin hroom
      rw [processInstruction_right_count _ s h0 h1 hd] at hroom ⊢
      have hA : 0 ≤ (i.distance + 100 - firstKRight s.position) / 100 := by
        simp only [firstKRight, DIAL_SIZE]
        split_ifs <;> omega
      rw [f2, rightBranch32_count t _ t0 t1 hd hmax (by omega) (by omega), hp, hc]
      exact wrap32_of_range _ (by omega) hroom
    · intro hc hmin hroom
      rw [processInstruction_right_landed _ s h0 h1 hd] at hroom ⊢
      rw [f3, hpos, hc]
      split_ifs with hz
      · rw [if_pos hz] at hroom
        exact wrap32_of_range _ (by omega) hroom
      · omega

theorem runInstructions32_cons (i : Instruction) (rest : List Instruction) (s : DialState) :
    runInstructions32 (i :: rest) s =
      runInstructions32 rest (processInstruction32 i.direction i.distance s) := rfl

theorem runInstructions32_agrees (instrs : List Instruction) :
    ∀ t s : DialState, (∀ i ∈ instrs, i.InRange) → t.position = s.position →
      0 ≤ s.position → s.position ≤ 99 →
      (runInstructions32 instrs t).position = (runInstructions instrs s).position ∧
      (t.zeroCountPart2 = s.zeroCountPart2 → INT_MIN ≤ s.zeroCountPart2 →
        (runInstructions instrs s).zeroCountPart2 ≤ INT_MAX →
        (runInstructions32 instrs t).zeroCountPart2 = (runInstructions instrs s).zeroCountPart2) ∧
      (t.zeroCountPart1 = s.zeroCountPart1 → INT_MIN ≤ s.zeroCountPart1 →
        (runInstructions instrs s).zeroCountPart1 ≤ INT_MAX →
        (runInstructions32 instrs t).zeroCountPart1 =
          (runInstructions instrs s).zeroCountPart1) := by
  induction instrs with
  | nil =>
    intro t s _ hp _ _
    exact ⟨hp, fun h _ _ => h, fun h _ _ => h⟩
  | cons i rest ih =>
    intro t s hin hp h0 h1
    have hi := hin i (List.mem_cons_self _ _)
    have hrest : ∀ j ∈ rest, j.InRange := fun j hj => hin j (List.mem_cons_of_mem _ hj)
    have hd : 0 ≤ i.distance := hi.1.2
    obtain ⟨a1, a2, a3⟩ := processInstruction32_agrees i t s hi hp h0 h1
    obtain ⟨r0, r1⟩ := processInstruction_position_range i.direction i.distance s h0 h1 hd
    obtain ⟨m1, m2⟩ := processInstruction_counters_mono i.direction i.distance s h0 h1 hd
    obtain ⟨n1, n2⟩ := runInstructions_counters_mono rest
      (processInstruction i.direction i.distance s) (fun j hj => (hrest j hj).1.2) r0 r1
    obtain ⟨b1, b2, b3⟩ := ih (processInstruction32 i.direction i.distance t)
      (processInstruction i.direction i.distance s) hrest a1 r0 r1
    rw [runInstructions32_cons, runInstructions_cons]
    refine ⟨b1, ?_, ?_⟩
    · intro hc hmin hroom
      exact b2 (a2 hc hmin (Int.le_trans n2 hroom)) (Int.le_trans hmin m2) hroom
    · intro hc hmin hroom
      exact b3 (a3 hc hmin (Int.le_trans n1 hroom)) (Int.le_trans hmin m1) hroom

theorem processInstruction32_other (direction : Char) (d : Int) (s : DialState)
    (hL : direction ≠ 'L') (hR : direction ≠ 'R') :
    processInstruction32 direction d s =
      if s.position = 0 then ⟨s.position, wrap32 (s.zeroCountPart1 + 1), s.zeroCountPart2⟩
      else s := by
  simp [processInstruction32, hL, hR]

theorem wrap32_range (x : Int) : INT_MIN ≤ wrap32 x ∧ wrap32 x ≤ INT_MAX := by
  unfold INT_MIN INT_MAX wrap32
  omega

theorem run_take_counters_le (instrs : List Instruction) (hd : ∀ i ∈ instrs, 0 ≤ i.distance)
    (j : Nat) :
    (runInstructions (instrs.take j) initialState).zeroCountPart1 ≤
        (runInstructions instrs initialState).zeroCountPart1 ∧
      (runInstructions (instrs.take j) initialState).zeroCountPart2 ≤
        (runInstructions instrs initialState).zeroCountPart2 := by
  obtain ⟨r0, r1⟩ := runInstructions_position_range (instrs.take j) initialState
    (fun i hi => hd i (List.mem_of_mem_take hi)) (by decide) (by decide)
  have hsplit : runInstructions instrs initialState =
      runInstructions (instrs.drop j) (runInstructions (instrs.take j) initialState) := by
    rw [← runInstructions_append, List.take_append_drop]
  rw [hsplit]
  exact runInstructions_counters_mono _ _ (fun i hi => hd i (List.mem_of_mem_drop hi)) r0 r1

theorem inRange_take (instrs : List Instruction) (hin : ∀ i ∈ instrs, i.InRange) (j : Nat) :
    ∀ i ∈ instrs.take j, i.InRange :=
  fun i hi => hin i (List.mem_of_mem_take hi)

theorem run_counters_of_counts (instrs : List Instruction) (hwf : ∀ i ∈ instrs, i.WellFormed) :
    (runInstructions instrs initialState).zeroCountPart1 = (zeroPrefixCount 50 instrs : Int) ∧
      (runInstructions instrs initialState).zeroCountPart2 =
        ((simulateRun instrs (50, 0)).2 : Int) := by
  constructor
  · have h := run_landed_count instrs initialState hwf (by decide) (by decide)
    simpa [initialState, START_POSITION] using h
  · exact (run_matches_simulation instrs initialState (50, 0) hwf
      (by decide) (by decide) rfl rfl).2.symm

theorem initialState_agrees (instrs : List Instruction) (hin : ∀ i ∈ instrs, i.InRange) :
    (runInstructions32 instrs initialState).position =
        (runInstructions instrs initialState).position ∧
      ((runInstructions instrs initialState).zeroCountPart2 ≤ INT_MAX →
        (runInstructions32 instrs initialState).zeroCountPart2 =
          (runInstructions instrs initialState).zeroCountPart2) ∧
      ((runInstructions instrs initialState).zeroCountPart1 ≤ INT_MAX →
        (runInstructions32 instrs initialState).zeroCountPart1 =
          (runInstructions instrs initialState).zeroCountPart1) := by
  obtain ⟨a, b, c⟩ := runInstructions32_agrees instrs initialState initialState hin rfl
    (by decide) (by decide)
  exact ⟨a, b rfl (by decide), c rfl (by decide)⟩

/-! ## The claims on 32-bit runs -/

set_option maxRecDepth 100000 in
/-- C1 (as stated, refuted): on the well-formed sequence `R2147483647`, `R3`
the sum `position + distance` leaves the range of `int`, the position becomes
negative and the final Part 2 counter is 21474836, while the click-by-click
simulation counts 21474837 clicks on 0; after 101 times `R2147483548` the
Part 2 counter itself has wrapped to a negative value. -/
theorem part2_counter_misses_clicks_on_overflow :
    (∀ i ∈ [(⟨'R', 2147483647⟩ : Instruction), ⟨'R', 3⟩], i.WellFormed) ∧
      (runInstructions32 [⟨'R', 2147483647⟩, ⟨'R', 3⟩] initialState).zeroCountPart2 =
        21474836 ∧
      ((simulateRun [⟨'R', 2147483647⟩, ⟨'R', 3⟩] (50, 0)).2 : Int) = 21474837 ∧
      (∀ i ∈ List.replicate 101 (⟨'R', 2147483548⟩ : Instruction), i.WellFormed) ∧
      (runInstructions32 (List.replicate 101 ⟨'R', 2147483548⟩) initialState).zeroCountPart2 =
        -2126008913 := by
  refine ⟨by decide, by decide, ?_, by decide, by decide⟩
  have h := run_counters_of_counts [⟨'R', 2147483647⟩, ⟨'R', 3⟩] (by decide)
  rw [← h.2]
  decide

/-- C1 (amended): for every sequence of well-formed instructions whose
distances are at most `2^31 - 1`, and at most `2^31 - 100` for the direction
`R`, and whose click-by-click simulation counts at most `2^31 - 1` clicks on 0,
the final Part 2 counter of the run from the start position 50 equals the
number of clicks at which the dial reads 0 in that simulation. -/
theorem part2_counter_eq_click_simulation_in_range (instrs : List Instruction)
    (hin : ∀ i ∈ instrs, i.InRange)
    (hcount : ((simulateRun instrs (50, 0)).2 : Int) ≤ INT_MAX) :
    (runInstructions32 instrs initialState).zeroCountPart2 =
      ((simulateRun instrs (50, 0)).2 : Int) := by
  obtain ⟨_, h2⟩ := run_counters_of_counts instrs (fun i hi => (hin i hi).1)
  obtain ⟨_, a2, _⟩ := initialState_agrees instrs hin
  rw [a2 (by rw [h2]; exact hcount), h2]

set_option maxRecDepth 100000 in
theorem part2_counter_eq_click_simulation_in_range_witness :
    ((∀ i ∈ [(⟨'R', 50⟩ : Instruction), ⟨'L', 105⟩, ⟨'L', 0⟩, ⟨'R', 60⟩], i.InRange) ∧
      ((simulateRun [⟨'R', 50⟩, ⟨'L', 105⟩, ⟨'L', 0⟩, ⟨'R', 60⟩] (50, 0)).2 : Int) ≤ INT_MAX) ∧
    (runInstructions32 [⟨'R', 50⟩, ⟨'L', 105⟩, ⟨'L', 0⟩, ⟨'R', 60⟩] initialState).zeroCountPart2 =
      ((simulateRun [⟨'R', 50⟩, ⟨'L', 105⟩, ⟨'L', 0⟩, ⟨'R', 60⟩] (50, 0)).2 : Int) :=
  ⟨by decide, part2_counter_eq_click_simulation_in_range _ (by decide) (by decide)⟩

/-- C2 (as stated, refuted): on the well-formed sequence `R2147483647`, `R3`
the whole sequence is a prefix with `50 + 2147483650` divisible by 100, so the
number of such prefixes is 1, but the position after it is -96 and the final
Part 1 counter is 0. -/
theorem part1_counter_misses_prefix_on_overflow :
    (∀ i ∈ [(⟨'R', 2147483647⟩ : Instruction), ⟨'R', 3⟩], i.WellFormed) ∧
      zeroPrefixCount 50 [⟨'R', 2147483647⟩, ⟨'R', 3⟩] = 1 ∧
      (runInstructions32 [⟨'R', 2147483647⟩, ⟨'R', 3⟩] initialState).zeroCountPart1 = 0 ∧
      (runInstructions32 [⟨'R', 2147483647⟩, ⟨'R', 3⟩] initialState).position = -96 ∧
      (100 : Int) ∣ 50 + netDisplacement [⟨'R', 2147483647⟩, ⟨'R', 3⟩] := by
  decide

/-- C2 (amended): for every sequence of well-formed instructions whose
distances are at most `2^31 - 1`, and at most `2^31 - 100` for the direction
`R`, and which has at most `2^31 - 1` non-empty prefixes whose net signed
displacement added to 50 is divisible by 100, the final Part 1 counter of the
run from the start position 50 equals the number of those prefixes; the
position after a prefix is 0 exactly when that divisibility holds. -/
theorem part1_counter_eq_zero_prefix_count_in_range (instrs : List Instruction)
    (hin : ∀ i ∈ instrs, i.InRange)
    (hcount : (zeroPrefixCount 50 instrs : Int) ≤ INT_MAX) :
    (runInstructions32 instrs initialState).zeroCountPart1 =
        (zeroPrefixCount 50 instrs : Int) ∧
      ∀ pre : List Instruction, pre <+: instrs →
        ((runInstructions32 pre initialState).position = 0 ↔
          (100 : Int) ∣ 50 + netDisplacement pre) := by
  constructor
  · obtain ⟨h1, _⟩ := run_counters_of_counts instrs (fun i hi => (hin i hi).1)
    obtain ⟨_, _, a1⟩ := initialState_agrees instrs hin
    rw [a1 (by rw [h1]; exact hcount), h1]
  · intro pre hpre
    have hpin : ∀ i ∈ pre, i.InRange := fun i hi => hin i (hpre.subset hi)
    obtain ⟨a, _, _⟩ := initialState_agrees pre hpin
    rw [a, run_position pre initialState (fun i hi => (hpin i hi).1) (by decide) (by decide)]
    simp only [initialState, START_POSITION]
    omega

theorem part1_counter_eq_zero_prefix_count_in_range_witness :
    ((∀ i ∈ [(⟨'R', 50⟩ : Instruction), ⟨'L', 150⟩, ⟨'L', 50⟩, ⟨'R', 200⟩], i.InRange) ∧
      (zeroPrefixCount 50 [⟨'R', 50⟩, ⟨'L', 150⟩, ⟨'L', 50⟩, ⟨'R', 200⟩] : Int) ≤ INT_MAX) ∧
    ((runInstructions32 [⟨'R', 50⟩, ⟨'L', 150⟩, ⟨'L', 50⟩, ⟨'R', 200⟩]
          initialState).zeroCountPart1 =
        (zeroPrefixCount 50 [⟨'R', 50⟩, ⟨'L', 150⟩, ⟨'L', 50⟩, ⟨'R', 200⟩] : Int) ∧
      ∀ pre : List Instruction, pre <+: [⟨'R', 50⟩, ⟨'L', 150⟩, ⟨'L', 50⟩, ⟨'R', 200⟩] →
        ((runInstructions32 pre initialState).position = 0 ↔
          (100 : Int) ∣ 50 + netDisplacement pre)) :=
  ⟨by decide, part1_counter_eq_zero_prefix_count_in_range _ (by decide) (by decide)⟩

/-- C5 (as stated, refuted): from the start position 50 the instruction
`R2147483647` makes `position + distance` leave the range of `int`; the new
position is -99, outside `[0, 99]`. -/
theorem position_leaves_dial_on_overflow :
    ((0 : Int) ≤ initialState.position ∧ initialState.position ≤ 99 ∧
        (0 : Int) ≤ 2147483647 ∧ (2147483647 : Int) ≤ INT_MAX) ∧
      (rightBranch32 initialState 2147483647).position = -99 ∧
      (processInstruction32 'R' 2147483647 initialState).position = -99 ∧
      (runInstructions32 [⟨'R', 2147483647⟩] initialState).position = -99 := by
  decide

/-- C5 (amended): from a position `p` in `[0, 99]` and for a distance `d` with
`0 ≤ d ≤ 2^31 - 1`, the position after the `L` update lies in `[0, 99]`, and
the position after the `R` update lies in `[0, 99]` when `p + d ≤ 2^31 - 1`;
hence in a run started at 50 whose distances are at most `2^31 - 1`, and at
most `2^31 - 100` for the direction `R`, the position lies in `[0, 99]` after
every instruction. -/
theorem position_stays_on_dial_in_range (s : DialState) (direction : Char) (d : Int)
    (h0 : 0 ≤ s.position) (h1 : s.position ≤ 99) (hd0 : 0 ≤ d) (hd1 : d ≤ INT_MAX)
    (hR : direction = 'R' → s.position + d ≤ INT_MAX)
    (instrs : List Instruction) (hin : ∀ i ∈ instrs, i.InRange) (k : Nat) :
    (0 ≤ (leftBranch32 s d).position ∧ (leftBranch32 s d).position ≤ 99) ∧
    (s.position + d ≤ INT_MAX →
      0 ≤ (rightBranch32 s d).position ∧ (rightBranch32 s d).position ≤ 99) ∧
    (0 ≤ (processInstruction32 direction d s).position ∧
      (processInstruction32 direction d s).position ≤ 99) ∧
    (0 ≤ (runInstructions32 (instrs.take k) initialState).position ∧
      (runInstructions32 (instrs.take k) initialState).position ≤ 99) := by
  have hleft : 0 ≤ (leftBranch32 s d).position ∧ (leftBranch32 s d).position ≤ 99 := by
    rw [leftBranch32_position s d h0 h1 hd0 hd1]
    omega
  have hright : s.position + d ≤ INT_MAX →
      0 ≤ (rightBranch32 s d).position ∧ (rightBranch32 s d).position ≤ 99 := by
    intro hsum
    rw [rightBranch32_position s d h0 hd0 hsum]
    omega
  refine ⟨hleft, hright, ?_, ?_⟩
  · by_cases hL : direction = 'L'
    · subst hL
      rw [(processInstruction32_left_fields d s).1]
      exact hleft
    · by_cases hRd : direction = 'R'
      · have hsum := hR hRd
        subst hRd
        rw [(processInstruction32_right_fields d s).1]
        exact hright hsum
      · rw [processInstruction32_other direction d s hL hRd]
        split_ifs <;> exact ⟨h0, h1⟩
  · have hpin := inRange_take instrs hin k
    rw [(initialState_agrees (instrs.take k) hpin).1]
    exact runInstructions_position_range (instrs.take k) initialState
      (fun i hi => (hpin i hi).1.2) (by decide) (by decide)

theorem position_stays_on_dial_in_range_witness :
    ((0 ≤ (⟨99, 0, 0⟩ : DialState).position ∧ (⟨99, 0, 0⟩ : DialState).position ≤ 99) ∧
      (0 : Int) ≤ 2147483548 ∧ (2147483548 : Int) ≤ INT_MAX ∧
      (('R' : Char) = 'R' → (⟨99, 0, 0⟩ : DialState).position + 2147483548 ≤ INT_MAX) ∧
      (∀ i ∈ [(⟨'L', 2147483647⟩ : Instruction), ⟨'R', 2147483548⟩, ⟨'L', 7⟩], i.InRange)) ∧
    ((0 ≤ (leftBranch32 ⟨99, 0, 0⟩ 2147483548).position ∧
        (leftBranch32 ⟨99, 0, 0⟩ 2147483548).position ≤ 99) ∧
      ((⟨99, 0, 0⟩ : DialState).position + 2147483548 ≤ INT_MAX →
        0 ≤ (rightBranch32 ⟨99, 0, 0⟩ 2147483548).position ∧
          (rightBranch32 ⟨99, 0, 0⟩ 2147483548).position ≤ 99) ∧
      (0 ≤ (processInstruction32 'R' 2147483548 ⟨99, 0, 0⟩).position ∧
        (processInstruction32 'R' 2147483548 ⟨99, 0, 0⟩).position ≤ 99) ∧
      (0 ≤ (runInstructions32
          ([(⟨'L', 2147483647⟩ : Instruction), ⟨'R', 2147483548⟩, ⟨'L', 7⟩].take 2)
            initialState).position ∧
        (runInstructions32
          ([(⟨'L', 2147483647⟩ : Instruction), ⟨'R', 2147483548⟩, ⟨'L', 7⟩].take 2)
            initialState).position ≤ 99)) :=
  ⟨by decide,
    position_stays_on_dial_in_range ⟨99, 0, 0⟩ 'R' 2147483548 (by decide) (by decide)
      (by decide) (by decide) (by decide)
      [⟨'L', 2147483647⟩, ⟨'R', 2147483548⟩, ⟨'L', 7⟩] (by decide) 2⟩

/-- C6 (as stated, refuted): from position 48 the right update by 2147483647
overflows and gives position -1, and the left update by 2147483647 that
follows gives 52, not 48. -/
theorem right_then_left_misses_on_overflow :
    ((0 : Int) ≤ (⟨48, 0, 0⟩ : DialState).position ∧ (⟨48, 0, 0⟩ : DialState).position ≤ 99 ∧
        (0 : Int) ≤ 2147483647 ∧ (2147483647 : Int) ≤ INT_MAX) ∧
      (rightBranch32 ⟨48, 0, 0⟩ 2147483647).position = -1 ∧
      (leftBranch32 (rightBranch32 ⟨48, 0, 0⟩ 2147483647) 2147483647).position = 52 ∧
      (processInstruction32 'L' 2147483647
        (processInstruction32 'R' 2147483647 ⟨48, 0, 0⟩)).position = 52 := by
  decide

/-- C6 (amended): from a position `p` in `[0, 99]` and for a distance `d ≥ 0`
with `p + d ≤ 2^31 - 1`, the right position update by `d` followed by the left
position update by `d` returns the position to `p`. -/
theorem right_then_left_returns_in_range (s : DialState) (d : Int)
    (h0 : 0 ≤ s.position) (h1 : s.position ≤ 99) (hd : 0 ≤ d)
    (hsum : s.position + d ≤ INT_MAX) :
    (leftBranch32 (rightBranch32 s d) d).position = s.position ∧
      (processInstruction32 'L' d (processInstruction32 'R' d s)).position = s.position := by
  have hd1 : d ≤ INT_MAX := by omega
  have hr : (rightBranch32 s d).position = (s.position + d) % 100 :=
    rightBranch32_position s d h0 hd hsum
  have hpr : (processInstruction32 'R' d s).position = (s.position + d) % 100 := by
    rw [(processInstruction32_right_fields d s).1, hr]
  constructor
  · rw [leftBranch32_position _ d (by omega) (by omega) hd hd1, hr]
    omega
  · rw [(processInstruction32_left_fields d _).1,
      leftBranch32_position _ d (by omega) (by omega) hd hd1, hpr]
    omega

theorem right_then_left_returns_in_range_witness :
    (0 ≤ (⟨48, 4, 9⟩ : DialState).position ∧ (⟨48, 4, 9⟩ : DialState).position ≤ 99 ∧
      (0 : Int) ≤ 2147483599 ∧ (⟨48, 4, 9⟩ : DialState).position + 2147483599 ≤ INT_MAX) ∧
    ((leftBranch32 (rightBranch32 ⟨48, 4, 9⟩ 2147483599) 2147483599).position =
        (⟨48, 4, 9⟩ : DialState).position ∧
      (processInstruction32 'L' 2147483599
          (processInstruction32 'R' 2147483599 ⟨48, 4, 9⟩)).position =
        (⟨48, 4, 9⟩ : DialState).position) :=
  ⟨by decide,
    right_then_left_returns_in_range ⟨48, 4, 9⟩ 2147483599 (by decide) (by decide)
      (by decide) (by decide)⟩

/-- C7 (as stated, refuted): from position 99 and for `n = 21474836` the
distance `(100 - 99) + 100 * n = 2147483601` is an `int`, but the `R`
instruction ends at position -96 and the Part 1 counter is not incremented. -/
theorem right_landing_misses_on_overflow :
    ((1 : Int) ≤ (⟨99, 0, 0⟩ : DialState).position ∧ (⟨99, 0, 0⟩ : DialState).position ≤ 99 ∧
        (100 - 99) + 100 * (21474836 : Int) ≤ INT_MAX) ∧
      processInstruction32 'R' ((100 - 99) + 100 * 21474836) ⟨99, 0, 0⟩ =
        ⟨-96, 0, 21474837⟩ := by
  decide

/-- C7 (amended): from a position `p` in `[1, 99]` and for `n ≥ 0` with
`100 * (n + 1) ≤ 2^31 - 1`, one `R` instruction with distance
`(100 - p) + 100 * n` lands on 0, adds 1 to a Part 1 counter that can hold the
sum and `n + 1` to a Part 2 counter that can hold the sum; `R50` from the start
state gives position 0 and both counters 1, `R150` gives position 0, Part 1
counter 1 and Part 2 counter 2. -/
theorem right_landing_contribution_in_range (s : DialState) (n : Nat)
    (h0 : 1 ≤ s.position) (h1 : s.position ≤ 99) (hn : 100 * ((n : Int) + 1) ≤ INT_MAX) :
    ((processInstruction32 'R' ((100 - s.position) + 100 * n) s).position = 0 ∧
      (INT_MIN ≤ s.zeroCountPart1 → s.zeroCountPart1 + 1 ≤ INT_MAX →
        (processInstruction32 'R' ((100 - s.position) + 100 * n) s).zeroCountPart1 =
          s.zeroCountPart1 + 1) ∧
      (INT_MIN ≤ s.zeroCountPart2 → s.zeroCountPart2 + (n + 1) ≤ INT_MAX →
        (processInstruction32 'R' ((100 - s.position) + 100 * n) s).zeroCountPart2 =
          s.zeroCountPart2 + (n + 1))) ∧
    processInstruction32 'R' 50 initialState = ⟨0, 1, 1⟩ ∧
    processInstruction32 'R' 150 initialState = ⟨0, 1, 2⟩ := by
  have hd : 0 ≤ (100 - s.position) + 100 * (n : Int) := by omega
  have hsum : s.position + ((100 - s.position) + 100 * (n : Int)) ≤ INT_MAX := by
    unfold INT_MAX at hn ⊢
    omega
  have hd1 : (100 - s.position) + 100 * (n : Int) ≤ INT_MAX := by omega
  obtain ⟨f1, f2, f3⟩ := processInstruction32_right_fields ((100 - s.position) + 100 * n) s
  have hpos : (rightBranch32 s ((100 - s.position) + 100 * n)).position = 0 := by
    rw [rightBranch32_position s _ (by omega) hd hsum]
    omega
  refine ⟨⟨?_, ?_, ?_⟩, by decide, by decide⟩
  · rw [f1, hpos]
  · intro hmin hroom
    rw [f3, if_pos hpos]
    exact wrap32_of_range _ (by omega) hroom
  · intro hmin hroom
    have hA : ((100 - s.position) + 100 * (n : Int) + 100 - firstKRight s.position) / 100 =
        (n : Int) + 1 := by
      simp only [firstKRight, DIAL_SIZE]
      split_ifs <;> omega
    rw [f2, rightBranch32_count s _ (by omega) h1 hd hd1 hmin (by omega), hA]
    exact wrap32_of_range _ (by omega) hroom

theorem right_landing_contribution_in_range_witness :
    ((1 ≤ (⟨99, 0, 0⟩ : DialState).position ∧ (⟨99, 0, 0⟩ : DialState).position ≤ 99) ∧
      100 * (((21474835 : Nat) : Int) + 1) ≤ INT_MAX) ∧
    (((processInstruction32 'R'
          ((100 - (⟨99, 0, 0⟩ : DialState).position) + 100 * ((21474835 : Nat) : Int))
          ⟨99, 0, 0⟩).position = 0 ∧
      (INT_MIN ≤ (⟨99, 0, 0⟩ : DialState).zeroCountPart1 →
        (⟨99, 0, 0⟩ : DialState).zeroCountPart1 + 1 ≤ INT_MAX →
        (processInstruction32 'R'
            ((100 - (⟨99, 0, 0⟩ : DialState).position) + 100 * ((21474835 : Nat) : Int))
            ⟨99, 0, 0⟩).zeroCountPart1 =
          (⟨99, 0, 0⟩ : DialState).zeroCountPart1 + 1) ∧
      (INT_MIN ≤ (⟨99, 0, 0⟩ : DialState).zeroCountPart2 →
        (⟨99, 0, 0⟩ : DialState).zeroCountPart2 + (((21474835 : Nat) : Int) + 1) ≤ INT_MAX →
        (processInstruction32 'R'
            ((100 - (⟨99, 0, 0⟩ : DialState).position) + 100 * ((21474835 : Nat) : Int))
            ⟨99, 0, 0⟩).zeroCountPart2 =
          (⟨99, 0, 0⟩ : DialState).zeroCountPart2 + (((21474835 : Nat) : Int) + 1))) ∧
    processInstruction32 'R' 50 initialState = ⟨0, 1, 1⟩ ∧
    processInstruction32 'R' 150 initialState = ⟨0, 1, 2⟩) :=
  ⟨by decide, right_landing_contribution_in_range ⟨99, 0, 0⟩ 21474835 (by decide) (by decide)
    (by decide)⟩

/-! ## Counters of the 32-bit loop body -/

theorem zeroClicks_closed (direction : Char) (p d : Int) (h0 : 0 ≤ p) (h1 : p ≤ 99)
    (hd : 0 ≤ d) :
    (zeroClicks direction p d : Int) =
      if direction = 'L' then (d + 100 - firstKLeft p) / 100
      else (d + 100 - firstKRight p) / 100 := by
  have hcast : ((d.toNat : Nat) : Int) = d := Int.toNat_of_nonneg hd
  have hl := leftZeroClicks_closed p h0 h1 d.toNat
  have hr := rightZeroClicks_closed p h0 h1 d.toNat
  rw [hcast] at hl hr
  unfold zeroClicks
  split_ifs
  · exact hl
  · exact hr

theorem processInstruction32_count (direction : Char) (d : Int) (s : DialState)
    (h0 : 0 ≤ s.position) (h1 : s.position ≤ 99)
    (hdir : direction = 'L' ∨ direction = 'R') (hd0 : 0 ≤ d) (hd1 : d ≤ INT_MAX)
    (hc0 : INT_MIN ≤ s.zeroCountPart2)
    (hroom : s.zeroCountPart2 + (zeroClicks direction s.position d : Int) ≤ INT_MAX) :
    (processInstruction32 direction d s).zeroCountPart2 =
      s.zeroCountPart2 + (zeroClicks direction s.position d : Int) := by
  have hz := zeroClicks_closed direction s.position d h0 h1 hd0
  have hnn : (0 : Int) ≤ (zeroClicks direction s.position d : Int) := Int.ofNat_nonneg _
  have hLR : ¬ (('R' : Char) = 'L') := by decide
  rcases hdir with hL | hR
  · subst hL
    rw [if_pos rfl] at hz
    rw [(processInstruction32_left_fields d s).2.1,
      leftBranch32_count s d h0 h1 hd0 hd1 hc0 (by omega), ← hz]
    exact wrap32_of_range _ (by omega) hroom
  · subst hR
    rw [if_neg hLR] at hz
    rw [(processInstruction32_right_fields d s).2.1,
      rightBranch32_count s d h0 h1 hd0 hd1 hc0 (by omega), ← hz]
    exact wrap32_of_range _ (by omega) hroom

theorem processInstruction32_landed_mono (direction : Char) (d : Int) (s : DialState)
    (hc0 : INT_MIN ≤ s.zeroCountPart1) (hroom : s.zeroCountPart1 + 1 ≤ INT_MAX) :
    s.zeroCountPart1 ≤ (processInstruction32 direction d s).zeroCountPart1 := by
  have hw : wrap32 (s.zeroCountPart1 + 1) = s.zeroCountPart1 + 1 :=
    wrap32_of_range _ (by omega) hroom
  by_cases hL : direction = 'L'
  · subst hL
    rw [(processInstruction32_left_fields d s).2.2, hw]
    split_ifs <;> omega
  · by_cases hR : direction = 'R'
    · subst hR
      rw [(processInstruction32_right_fields d s).2.2, hw]
      split_ifs <;> omega
    · rw [processInstruction32_other direction d s hL hR, hw]
      split_ifs
      · show s.zeroCountPart1 ≤ s.zeroCountPart1 + 1
        omega
      · exact Int.le_refl _

theorem run_take_mono (instrs : List Instruction) (hd : ∀ i ∈ instrs, 0 ≤ i.distance)
    (k m : Nat) (hkm : k ≤ m) :
    (runInstructions (instrs.take k) initialState).zeroCountPart1 ≤
        (runInstructions (instrs.take m) initialState).zeroCountPart1 ∧
      (runInstructions (instrs.take k) initialState).zeroCountPart2 ≤
        (runInstructions (instrs.take m) initialState).zeroCountPart2 := by
  have h := run_take_counters_le (instrs.take m)
    (fun i hi => hd i (List.mem_of_mem_take hi)) k
  rw [List.take_take, Nat.min_eq_left hkm] at h
  exact h

theorem run32_take_counters (instrs : List Instruction) (hin : ∀ i ∈ instrs, i.InRange)
    (hcount1 : (zeroPrefixCount 50 instrs : Int) ≤ INT_MAX)
    (hcount2 : ((simulateRun instrs (50, 0)).2 : Int) ≤ INT_MAX) (j : Nat) :
    (runInstructions32 (instrs.take j) initialState).zeroCountPart1 =
        (runInstructions (instrs.take j) initialState).zeroCountPart1 ∧
      (runInstructions32 (instrs.take j) initialState).zeroCountPart2 =
        (runInstructions (instrs.take j) initialState).zeroCountPart2 := by
  obtain ⟨e1, e2⟩ := run_counters_of_counts instrs (fun i hi => (hin i hi).1)
  obtain ⟨l1, l2⟩ := run_take_counters_le instrs (fun i hi => (hin i hi).1.2) j
  obtain ⟨_, a2, a1⟩ := initialState_agrees (instrs.take j) (inRange_take instrs hin j)
  exact ⟨a1 (by omega), a2 (by omega)⟩

/-! ## The claims on 32-bit counters -/

set_option maxRecDepth 100000 in
/-- C13 (as stated, refuted): in the run of 101 times `R2147483548` from the
start state, every position stays on the dial, the Part 2 counter is
2147483548 after 100 instructions and -2126008913 after the next one: it has
decreased and is negative. -/
theorem part2_counter_wraps_negative :
    (∀ i ∈ List.replicate 101 (⟨'R', 2147483548⟩ : Instruction), i.WellFormed) ∧
      (runInstructions32 ((List.replicate 101 (⟨'R', 2147483548⟩ : Instruction)).take 100)
        initialState) = ⟨50, 0, 2147483548⟩ ∧
      (runInstructions32 ((List.replicate 101 (⟨'R', 2147483548⟩ : Instruction)).take 101)
        initialState) = ⟨98, 0, -2126008913⟩ ∧
      processInstruction32 'R' 2147483548 ⟨50, 0, 2147483548⟩ = ⟨98, 0, -2126008913⟩ := by
  decide

/-- C13 (amended): from a position in `[0, 99]` an `L` or `R` instruction with
`0 ≤ d ≤ 2^31 - 1` decreases neither counter when the Part 1 counter can hold
one more and the Part 2 counter can hold the clicks on 0 of the rotation; in a
run from the start state whose distances are at most `2^31 - 1`, and at most
`2^31 - 100` for the direction `R`, and whose two exact counts are at most
`2^31 - 1`, both counters are non-negative after every instruction and never
decrease from one instruction to a later one. -/
theorem counters_never_decrease_in_range (s : DialState) (direction : Char) (d : Int)
    (h0 : 0 ≤ s.position) (h1 : s.position ≤ 99)
    (hdir : direction = 'L' ∨ direction = 'R') (hd0 : 0 ≤ d) (hd1 : d ≤ INT_MAX)
    (hc1 : INT_MIN ≤ s.zeroCountPart1) (hroom1 : s.zeroCountPart1 + 1 ≤ INT_MAX)
    (hc2 : INT_MIN ≤ s.zeroCountPart2)
    (hroom2 : s.zeroCountPart2 + (zeroClicks direction s.position d : Int) ≤ INT_MAX)
    (instrs : List Instruction) (hin : ∀ i ∈ instrs, i.InRange)
    (hcount1 : (zeroPrefixCount 50 instrs : Int) ≤ INT_MAX)
    (hcount2 : ((simulateRun instrs (50, 0)).2 : Int) ≤ INT_MAX)
    (k m : Nat) (hkm : k ≤ m) :
    (s.zeroCountPart1 ≤ (processInstruction32 direction d s).zeroCountPart1 ∧
      s.zeroCountPart2 ≤ (processInstruction32 direction d s).zeroCountPart2) ∧
    (0 ≤ (runInstructions32 (instrs.take k) initialState).zeroCountPart1 ∧
      0 ≤ (runInstructions32 (instrs.take k) initialState).zeroCountPart2) ∧
    ((runInstructions32 (instrs.take k) initialState).zeroCountPart1 ≤
        (runInstructions32 (instrs.take m) initialState).zeroCountPart1 ∧
      (runInstructions32 (instrs.take k) initialState).zeroCountPart2 ≤
        (runInstructions32 (instrs.take m) initialState).zeroCountPart2) := by
  have hd : ∀ i ∈ instrs, 0 ≤ i.distance := fun i hi => (hin i hi).1.2
  obtain ⟨k1, k2⟩ := run32_take_counters instrs hin hcount1 hcount2 k
  obtain ⟨m1, m2⟩ := run32_take_counters instrs hin hcount1 hcount2 m
  refine ⟨⟨processInstruction32_landed_mono direction d s hc1 hroom1, ?_⟩, ?_, ?_⟩
  · rw [processInstruction32_count direction d s h0 h1 hdir hd0 hd1 hc2 hroom2]
    have hnn : (0 : Int) ≤ (zeroClicks direction s.position d : Int) := Int.ofNat_nonneg _
    omega
  · rw [k1, k2]
    exact runInstructions_counters_mono (instrs.take k) initialState
      (fun i hi => hd i (List.mem_of_mem_take hi)) (by decide) (by decide)
  · rw [k1, k2, m1, m2]
    exact run_take_mono instrs hd k m hkm

set_option maxRecDepth 100000 in
theorem counters_never_decrease_in_range_witness :
    ((0 ≤ (⟨0, 3, 4⟩ : DialState).position ∧ (⟨0, 3, 4⟩ : DialState).position ≤ 99) ∧
      (('L' : Char) = 'L' ∨ ('L' : Char) = 'R') ∧ (0 : Int) ≤ 250 ∧ (250 : Int) ≤ INT_MAX ∧
      (INT_MIN ≤ (⟨0, 3, 4⟩ : DialState).zeroCountPart1 ∧
        (⟨0, 3, 4⟩ : DialState).zeroCountPart1 + 1 ≤ INT_MAX) ∧
      (INT_MIN ≤ (⟨0, 3, 4⟩ : DialState).zeroCountPart2 ∧
        (⟨0, 3, 4⟩ : DialState).zeroCountPart2 +
          (zeroClicks 'L' (⟨0, 3, 4⟩ : DialState).position 250 : Int) ≤ INT_MAX) ∧
      (∀ i ∈ [(⟨'R', 50⟩ : Instruction), ⟨'L', 0⟩, ⟨'L', 105⟩], i.InRange) ∧
      (zeroPrefixCount 50 [⟨'R', 50⟩, ⟨'L', 0⟩, ⟨'L', 105⟩] : Int) ≤ INT_MAX ∧
      ((simulateRun [⟨'R', 50⟩, ⟨'L', 0⟩, ⟨'L', 105⟩] (50, 0)).2 : Int) ≤ INT_MAX ∧ 1 ≤ 3) ∧
    (((⟨0, 3, 4⟩ : DialState).zeroCountPart1 ≤
          (processInstruction32 'L' 250 ⟨0, 3, 4⟩).zeroCountPart1 ∧
        (⟨0, 3, 4⟩ : DialState).zeroCountPart2 ≤
          (processInstruction32 'L' 250 ⟨0, 3, 4⟩).zeroCountPart2) ∧
      (0 ≤ (runInstructions32 ([(⟨'R', 50⟩ : Instruction), ⟨'L', 0⟩, ⟨'L', 105⟩].take 1)
          initialState).zeroCountPart1 ∧
        0 ≤ (runInstructions32 ([(⟨'R', 50⟩ : Instruction), ⟨'L', 0⟩, ⟨'L', 105⟩].take 1)
          initialState).zeroCountPart2) ∧
      ((runInstructions32 ([(⟨'R', 50⟩ : Instruction), ⟨'L', 0⟩, ⟨'L', 105⟩].take 1)
            initialState).zeroCountPart1 ≤
          (runInstructions32 ([(⟨'R', 50⟩ : Instruction), ⟨'L', 0⟩, ⟨'L', 105⟩].take 3)
            initialState).zeroCountPart1 ∧
        (runInstructions32 ([(⟨'R', 50⟩ : Instruction), ⟨'L', 0⟩, ⟨'L', 105⟩].take 1)
            initialState).zeroCountPart2 ≤
          (runInstructions32 ([(⟨'R', 50⟩ : Instruction), ⟨'L', 0⟩, ⟨'L', 105⟩].take 3)
            initialState).zeroCountPart2)) :=
  ⟨by decide,
    counters_never_decrease_in_range ⟨0, 3, 4⟩ 'L' 250 (by decide) (by decide) (by decide)
      (by decide) (by decide) (by decide) (by decide) (by decide) (by decide)
      [⟨'R', 50⟩, ⟨'L', 0⟩, ⟨'L', 105⟩] (by decide) (by decide) (by decide) 1 3 (by decide)⟩

set_option maxRecDepth 100000 in
/-- C17 (as stated, refuted): every distance of the run of 101 times
`R2147483548` is at least 1, and the run ends with Part 1 counter 0 and Part 2
counter -2126008913; in the run `R2147483647`, `R99` the second instruction
starts at position -99, lands on 0 and adds 0 to the Part 2 counter. -/
theorem part1_exceeds_part2_on_overflow :
    ((∀ i ∈ List.replicate 101 (⟨'R', 2147483548⟩ : Instruction), i.WellFormed) ∧
      (∀ i ∈ List.replicate 101 (⟨'R', 2147483548⟩ : Instruction), 1 ≤ i.distance) ∧
      ¬ ((runInstructions32 (List.replicate 101 ⟨'R', 2147483548⟩) initialState).zeroCountPart1 ≤
        (runInstructions32 (List.replicate 101 ⟨'R', 2147483548⟩) initialState).zeroCountPart2)) ∧
    (runInstructions32 [⟨'R', 2147483647⟩] initialState = ⟨-99, 0, 21474836⟩ ∧
      processInstruction32 'R' 99 ⟨-99, 0, 21474836⟩ = ⟨0, 1, 21474836⟩) := by
  decide

/-- C17 (amended): in a run from the start position 50 in which every distance
is at least 1 and at most `2^31 - 1`, and at most `2^31 - 100` for the
direction `R`, and whose click-by-click simulation counts at most `2^31 - 1`
clicks on 0, the final Part 1 counter is at most the final Part 2 counter; for
a single `L` or `R` instruction with `1 ≤ d ≤ 2^31 - 1` from a position in
`[0, 99]`, a new position equal to 0 means that at least 1 was added to a
Part 2 counter that can hold the clicks on 0 of the rotation. -/
theorem part1_le_part2_for_positive_distances_in_range (instrs : List Instruction)
    (hin : ∀ i ∈ instrs, i.InRange) (hpos : ∀ i ∈ instrs, 1 ≤ i.distance)
    (hcount : ((simulateRun instrs (50, 0)).2 : Int) ≤ INT_MAX)
    (s : DialState) (i : Instruction) (h0 : 0 ≤ s.position) (h1 : s.position ≤ 99)
    (hi : i.WellFormed) (hd : 1 ≤ i.distance) (hd1 : i.distance ≤ INT_MAX)
    (hc : INT_MIN ≤ s.zeroCountPart2)
    (hroom : s.zeroCountPart2 + (zeroClicks i.direction s.position i.distance : Int) ≤ INT_MAX)
    (hzero : (processInstruction32 i.direction i.distance s).position = 0) :
    (runInstructions32 instrs initialState).zeroCountPart1 ≤
        (runInstructions32 instrs initialState).zeroCountPart2 ∧
      s.zeroCountPart2 + 1 ≤ (processInstruction32 i.direction i.distance s).zeroCountPart2 := by
  constructor
  · have hwf : ∀ j ∈ instrs, j.WellFormed := fun j hj => (hin j hj).1
    obtain ⟨_, e2⟩ := run_counters_of_counts instrs hwf
    have hle := run_landed_le_crossed instrs initialState hwf hpos (by decide) (by decide)
    have hle2 : (runInstructions instrs initialState).zeroCountPart1 ≤
        (runInstructions instrs initialState).zeroCountPart2 := by
      simpa [initialState] using hle
    obtain ⟨_, a2, a1⟩ := initialState_agrees instrs hin
    rw [a1 (by omega), a2 (by omega)]
    exact hle2
  · obtain ⟨hdir, hd0⟩ := wellFormed_cases i hi
    rw [processInstruction32_count i.direction i.distance s h0 h1 hdir hd0 hd1 hc hroom]
    have hz := zeroClicks_closed i.direction s.position i.distance h0 h1 hd0
    have hLR : ¬ (('R' : Char) = 'L') := by decide
    rcases hdir with hL | hR
    · rw [hL] at hzero hz ⊢
      rw [(processInstruction32_left_fields _ s).1,
        leftBranch32_position s _ h0 h1 hd0 hd1] at hzero
      rw [hz, if_pos rfl]
      simp only [firstKLeft, DIAL_SIZE]
      split_ifs <;> omega
    · rw [hR] at hzero hz ⊢
      rw [hz, if_neg hLR]
      by_cases hsum : s.position + i.distance ≤ INT_MAX
      · rw [(processInstruction32_right_fields _ s).1,
          rightBranch32_position s _ h0 hd0 hsum] at hzero
        simp only [firstKRight, DIAL_SIZE]
        split_ifs <;> omega
      · unfold INT_MAX at hsum
        simp only [firstKRight, DIAL_SIZE]
        split_ifs <;> omega

set_option maxRecDepth 100000 in
theorem part1_le_part2_for_positive_distances_in_range_witness :
    ((∀ i ∈ [(⟨'R', 50⟩ : Instruction), ⟨'L', 100⟩, ⟨'R', 7⟩], i.InRange) ∧
      (∀ i ∈ [(⟨'R', 50⟩ : Instruction), ⟨'L', 100⟩, ⟨'R', 7⟩], 1 ≤ i.distance) ∧
      ((simulateRun [⟨'R', 50⟩, ⟨'L', 100⟩, ⟨'R', 7⟩] (50, 0)).2 : Int) ≤ INT_MAX ∧
      (0 ≤ (⟨0, 3, 4⟩ : DialState).position ∧ (⟨0, 3, 4⟩ : DialState).position ≤ 99) ∧
      (⟨'L', 300⟩ : Instruction).WellFormed ∧ 1 ≤ (⟨'L', 300⟩ : Instruction).distance ∧
      (⟨'L', 300⟩ : Instruction).distance ≤ INT_MAX ∧
      INT_MIN ≤ (⟨0, 3, 4⟩ : DialState).zeroCountPart2 ∧
      (⟨0, 3, 4⟩ : DialState).zeroCountPart2 +
        (zeroClicks (⟨'L', 300⟩ : Instruction).direction (⟨0, 3, 4⟩ : DialState).position
          (⟨'L', 300⟩ : Instruction).distance : Int) ≤ INT_MAX ∧
      (processInstruction32 (⟨'L', 300⟩ : Instruction).direction
        (⟨'L', 300⟩ : Instruction).distance ⟨0, 3, 4⟩).position = 0) ∧
    ((runInstructions32 [⟨'R', 50⟩, ⟨'L', 100⟩, ⟨'R', 7⟩] initialState).zeroCountPart1 ≤
        (runInstructions32 [⟨'R', 50⟩, ⟨'L', 100⟩, ⟨'R', 7⟩] initialState).zeroCountPart2 ∧
      (⟨0, 3, 4⟩ : DialState).zeroCountPart2 + 1 ≤
        (processInstruction32 (⟨'L', 300⟩ : Instruction).direction
          (⟨'L', 300⟩ : Instruction).distance ⟨0, 3, 4⟩).zeroCountPart2) :=
  ⟨by decide,
    part1_le_part2_for_positive_distances_in_range [⟨'R', 50⟩, ⟨'L', 100⟩, ⟨'R', 7⟩]
      (by decide) (by decide) (by decide) ⟨0, 3, 4⟩ ⟨'L', 300⟩ (by decide) (by decide)
      (by decide) (by decide) (by decide) (by decide) (by decide) (by decide)⟩

/-- C18 (as stated, refuted): from position 99 the instructions `R1073741824`
and `R1073741823` end at position 46, while the single instruction
`R2147483647` makes `position + distance` leave the range of `int` and ends at
position -50. -/
theorem merged_instruction_overflows :
    ((0 : Int) ≤ (⟨99, 0, 0⟩ : DialState).position ∧ (⟨99, 0, 0⟩ : DialState).position ≤ 99 ∧
        (0 : Int) ≤ 1073741824 ∧ (0 : Int) ≤ 1073741823 ∧
        (1073741824 + 1073741823 : Int) ≤ INT_MAX) ∧
      (processInstruction32 'R' 1073741823
        (processInstruction32 'R' 1073741824 ⟨99, 0, 0⟩)).position = 46 ∧
      (processInstruction32 'R' (1073741824 + 1073741823) ⟨99, 0, 0⟩).position = -50 := by
  decide

/-- C18 (amended): from a position `p` in `[0, 99]`, two consecutive
instructions in the same direction (`L` or `R`) with distances `d1, d2 ≥ 0`
such that `d1 + d2 ≤ 2^31 - 1`, and `p + d1 + d2 ≤ 2^31 - 1` for the direction
`R`, give the same final position and the same total addition to the Part 2
counter as one instruction in that direction with distance `d1 + d2`. -/
theorem same_direction_instructions_merge_in_range (s : DialState) (direction : Char)
    (d1 d2 : Int) (h0 : 0 ≤ s.position) (h1 : s.position ≤ 99)
    (hdir : direction = 'L' ∨ direction = 'R') (hd1 : 0 ≤ d1) (hd2 : 0 ≤ d2)
    (hsum : d1 + d2 ≤ INT_MAX) (hR : direction = 'R' → s.position + (d1 + d2) ≤ INT_MAX)
    (hc0 : INT_MIN ≤ s.zeroCountPart2) (hc1 : s.zeroCountPart2 ≤ INT_MAX) :
    (processInstruction32 direction d2 (processInstruction32 direction d1 s)).position =
        (processInstruction32 direction (d1 + d2) s).position ∧
      (processInstruction32 direction d2 (processInstruction32 direction d1 s)).zeroCountPart2 -
          s.zeroCountPart2 =
        (processInstruction32 direction (d1 + d2) s).zeroCountPart2 - s.zeroCountPart2 := by
  have hd : 0 ≤ d1 + d2 := by omega
  have hm1 : d1 ≤ INT_MAX := by omega
  have hm2 : d2 ≤ INT_MAX := by omega
  rcases hdir with hL | hRd
  · subst hL
    obtain ⟨p1, c1, _⟩ := processInstruction32_left_fields d1 s
    obtain ⟨p2, c2, _⟩ := processInstruction32_left_fields d2 (processInstruction32 'L' d1 s)
    obtain ⟨p3, c3, _⟩ := processInstruction32_left_fields (d1 + d2) s
    have hp1 : (processInstruction32 'L' d1 s).position = (s.position - d1) % 100 := by
      rw [p1, leftBranch32_position s d1 h0 h1 hd1 hm1]
    have hc1' : (processInstruction32 'L' d1 s).zeroCountPart2 =
        wrap32 (s.zeroCountPart2 + (d1 + 100 - firstKLeft s.position) / 100) := by
      rw [c1, leftBranch32_count s d1 h0 h1 hd1 hm1 hc0 hc1]
    obtain ⟨w0, w1⟩ := wrap32_range (s.zeroCountPart2 + (d1 + 100 - firstKLeft s.position) / 100)
    rw [p2, c2, p3, c3,
      leftBranch32_position _ d2 (by omega) (by omega) hd2 hm2,
      leftBranch32_count _ d2 (by omega) (by omega) hd2 hm2 (by rw [hc1']; exact w0)
        (by rw [hc1']; exact w1),
      leftBranch32_position s (d1 + d2) h0 h1 hd hsum,
      leftBranch32_count s (d1 + d2) h0 h1 hd hsum hc0 hc1, hp1, hc1']
    simp only [firstKLeft, DIAL_SIZE, wrap32]
    constructor
    · omega
    · split_ifs <;> omega
  · have hs := hR hRd
    subst hRd
    have hs1 : s.position + d1 ≤ INT_MAX := by omega
    obtain ⟨p1, c1, _⟩ := processInstruction32_right_fields d1 s
    obtain ⟨p2, c2, _⟩ := processInstruction32_right_fields d2 (processInstruction32 'R' d1 s)
    obtain ⟨p3, c3, _⟩ := processInstruction32_right_fields (d1 + d2) s
    have hp1 : (processInstruction32 'R' d1 s).position = (s.position + d1) % 100 := by
      rw [p1, rightBranch32_position s d1 h0 hd1 hs1]
    have hc1' : (processInstruction32 'R' d1 s).zeroCountPart2 =
        wrap32 (s.zeroCountPart2 + (d1 + 100 - firstKRight s.position) / 100) := by
      rw [c1, rightBranch32_count s d1 h0 h1 hd1 hm1 hc0 hc1]
    obtain ⟨w0, w1⟩ := wrap32_range (s.zeroCountPart2 + (d1 + 100 - firstKRight s.position) / 100)
    have hs2 : (processInstruction32 'R' d1 s).position + d2 ≤ INT_MAX := by
      rw [hp1]
      omega
    rw [p2, c2, p3, c3,
      rightBranch32_position _ d2 (by omega) hd2 hs2,
      rightBranch32_count _ d2 (by omega) (by omega) hd2 hm2 (by rw [hc1']; exact w0)
        (by rw [hc1']; exact w1),
      rightBranch32_position s (d1 + d2) h0 hd hs,
      rightBranch32_count s (d1 + d2) h0 h1 hd hsum hc0 hc1, hp1, hc1']
    simp only [firstKRight, DIAL_SIZE, wrap32]
    constructor
    · omega
    · split_ifs <;> omega

theorem same_direction_instructions_merge_in_range_witness :
    ((0 ≤ (⟨99, 1, 2⟩ : DialState).position ∧ (⟨99, 1, 2⟩ : DialState).position ≤ 99) ∧
      (('R' : Char) = 'L' ∨ ('R' : Char) = 'R') ∧ (0 : Int) ≤ 1073741824 ∧
      (0 : Int) ≤ 1073741724 ∧ (1073741824 + 1073741724 : Int) ≤ INT_MAX ∧
      (('R' : Char) = 'R' →
        (⟨99, 1, 2⟩ : DialState).position + (1073741824 + 1073741724) ≤ INT_MAX) ∧
      INT_MIN ≤ (⟨99, 1, 2⟩ : DialState).zeroCountPart2 ∧
      (⟨99, 1, 2⟩ : DialState).zeroCountPart2 ≤ INT_MAX) ∧
    ((processInstruction32 'R' 1073741724 (processInstruction32 'R' 1073741824 ⟨99, 1, 2⟩)).position =
        (processInstruction32 'R' (1073741824 + 1073741724) ⟨99, 1, 2⟩).position ∧
      (processInstruction32 'R' 1073741724
            (processInstruction32 'R' 1073741824 ⟨99, 1, 2⟩)).zeroCountPart2 -
          (⟨99, 1, 2⟩ : DialState).zeroCountPart2 =
        (processInstruction32 'R' (1073741824 + 1073741724) ⟨99, 1, 2⟩).zeroCountPart2 -
          (⟨99, 1, 2⟩ : DialState).zeroCountPart2) :=
  ⟨by decide,
    same_direction_instructions_merge_in_range ⟨99, 1, 2⟩ 'R' 1073741824 1073741724
      (by decide) (by decide) (by decide) (by decide) (by decide) (by decide) (by decide)
      (by decide) (by decide)⟩

end Day1
